import Mathlib

/-!
# The Docker-compatible HTTP gateway of `api/api.go`

A shallow embedding of the handlers (`getContainersJSON`, `ping`,
`notImplementedHandler`) and of the route table built by `createRouter`,
followed by the properties the specification states about them.

Go library calls are embedded by their documented behaviour:

* `strings.Contains`          : `stringsContains`
* `url.Values.Get`            : `Values.Get`
* `http.ResponseWriter`       : `ResponseWriter` (status line and body)
* `http.Error`                : `httpError`
* `json.Encoder.Encode`       : `jsonEncode`
* `sort.Sort` / `sort.Reverse`: `SortImpl` / `sortReverse`
* `mux.Router`                : `Router`, `matchTemplate`, `cleanPath`

`ContainerSorter` (its `Less`) and the JSON rendering of one
`dockerclient.Container` are not part of `api.go`; they are the fields
`less` and `marshal` of `Env`.

The router is embedded as far as `createRouter` uses it: a route is a path
template, one method and the function its closure `wrap` captured; a template
stands for the anchored regular expression the router compiles it to (literal
text, `.*` for any run of characters other than the line feed, `[0-9.]+` for a
non-empty run of digits and periods); the first matching route, in
registration order, serves the request. The empty template matches the empty
path only. Before any route is tried the router redirects (301) a request
whose path is not in canonical form (`cleanPath`); a request that no route
matches is answered 405 when some template matches its path and 404
otherwise. The order in which Go iterates the map `m` is not fixed;
`createRouterFrom` takes the table in a given order and `createRouter` is the
table in source order. Response headers other than `Location` and logging at
registration are outside the embedding.
-/

namespace Api

/-! ## Go values -/

/-- A Go slice value: the nil slice, or a (possibly empty) sequence. -/
inductive Slice (α : Type) where
  | null : Slice α
  | elems : List α → Slice α
  deriving DecidableEq, Repr

/-- The elements of a slice, in order. -/
def Slice.toList {α : Type} : Slice α → List α
  | .null => []
  | .elems xs => xs

/-- Go `append(s, x)`: the result is never the nil slice. -/
def Slice.append {α : Type} (s : Slice α) (x : α) : Slice α :=
  .elems (s.toList ++ [x])

/-- `p` is a prefix of `s`. -/
def startsWith : List Char → List Char → Bool
  | _, [] => true
  | [], _ :: _ => false
  | c :: s, d :: p => c == d && startsWith s p

/-- `sub` occurs in `s` starting at some position. -/
def containsChars (s sub : List Char) : Bool :=
  startsWith s sub ||
    match s with
    | [] => false
    | _ :: t => containsChars t sub

/-- Go `strings.Contains(s, substr)`. -/
def stringsContains (s substr : String) : Bool :=
  containsChars s.data substr.data

/-- Go `url.Values`: keys with their value lists. -/
abbrev Values := List (String × List String)

/-- Go `url.Values.Get`: the first value of the key, `""` when there is none. -/
def Values.Get (v : Values) (key : String) : String :=
  match v.lookup key with
  | some (x :: _) => x
  | _ => ""

/-! ## Containers and the cluster -/

/-- The record `dockerclient.Container` (the fields the listing carries). -/
structure DockerContainer where
  Id : String
  Names : List String
  Image : String
  Command : String
  Created : Int
  Status : String
  deriving DecidableEq, Repr

/-- The record `libcluster.Container`: it embeds a `dockerclient.Container`. -/
structure ClusterContainer where
  Container : DockerContainer
  node : String
  deriving DecidableEq, Repr

/-- The cluster handle; `Containers` is the one accessor the handlers use. -/
structure Cluster where
  containers : List ClusterContainer
  deriving DecidableEq, Repr

/-- The accessor `c.Containers()`. -/
def Cluster.Containers (c : Cluster) : List ClusterContainer := c.containers

/-! ## Requests and responses -/

/-- An `http.Request`: `Path` is `r.URL.Path`; `ParseForm` holds what
`r.ParseForm()` yields, the error text or the parsed form; `urlWithPath p` is
the text `url.String()` of the request's URL once its path is set to `p`. -/
structure Request where
  Method : String
  Path : String
  RequestURI : String
  ParseForm : Except String Values
  urlWithPath : String → String

/-- An `http.ResponseWriter`: `status` is `none` until the header is written;
`location` is the `Location` header, if set. -/
structure ResponseWriter where
  status : Option Nat
  body : String
  location : Option String
  deriving DecidableEq, Repr

/-- The writer a handler receives: nothing written yet. -/
def ResponseWriter.fresh : ResponseWriter := ⟨none, "", none⟩

/-- Go `w.Header().Set("Location", url)`. -/
def ResponseWriter.SetLocation (w : ResponseWriter) (url : String) : ResponseWriter :=
  { w with location := some url }

/-- Go `w.WriteHeader(code)`: only the first call sets the status. -/
def ResponseWriter.WriteHeader (w : ResponseWriter) (code : Nat) : ResponseWriter :=
  match w.status with
  | none => { w with status := some code }
  | some _ => w

/-- Go `w.Write(b)`: writes the header with status 200 when none was written. -/
def ResponseWriter.Write (w : ResponseWriter) (b : String) : ResponseWriter :=
  let w1 := w.WriteHeader 200
  { w1 with body := w1.body ++ b }

/-- The status the client receives (200 when the handler wrote no header). -/
def ResponseWriter.code (w : ResponseWriter) : Nat := w.status.getD 200

/-- Go `http.Error(w, error, code)`: the header, then the text as one line. -/
def httpError (w : ResponseWriter) (error : String) (code : Nat) : ResponseWriter :=
  (w.WriteHeader code).Write (error ++ "\n")

/-- Go `json.Marshal` of a slice: `null` for the nil slice, else an array. -/
def jsonMarshal {α : Type} (marshal : α → String) : Slice α → String
  | .null => "null"
  | .elems xs => "[" ++ String.intercalate "," (xs.map marshal) ++ "]"

/-- Go `json.NewEncoder(w).Encode(v)`: the encoding of `v` and a newline. -/
def jsonEncode {α : Type} (marshal : α → String) (w : ResponseWriter) (v : Slice α) :
    ResponseWriter :=
  w.Write (jsonMarshal marshal v ++ "\n")

/-! ## Sorting -/

/-- The comparison is a strict weak order. -/
structure StrictWeakOrder {α : Type} (less : α → α → Bool) : Prop where
  irrefl : ∀ a, less a a = false
  trans : ∀ a b c, less a b = true → less b c = true → less a c = true
  incomp_trans : ∀ a b c, less a b = false → less b a = false →
    less b c = false → less c b = false → less a c = false ∧ less c a = false

/-- Go `sort.Sort` by its contract: it only swaps elements, and the result is in
ascending order when `Less` is a strict weak order. -/
structure SortImpl (α : Type) where
  sort : (α → α → Bool) → List α → List α
  perm : ∀ less xs, (sort less xs).Perm xs
  sorted : ∀ less, StrictWeakOrder less →
    ∀ xs, (sort less xs).Pairwise (fun a b => less b a = false)

/-- Go `sort.Reverse`: `Less(i, j)` of the result is `Less(j, i)`. -/
def sortReverse {α : Type} (less : α → α → Bool) : α → α → Bool :=
  fun a b => less b a

/-- Go `sort.Sort(data)` on a slice (sorted in place; nil stays nil). -/
def sortSort {α : Type} (S : SortImpl α) (less : α → α → Bool) : Slice α → Slice α
  | .null => .null
  | .elems xs => .elems (S.sort less xs)

/-- Insertion of one element before the first element it is less than. -/
def insertSorted {α : Type} (less : α → α → Bool) (x : α) : List α → List α
  | [] => [x]
  | y :: ys => if less x y then x :: y :: ys else y :: insertSorted less x ys

/-- Insertion sort, the pass `sort.Sort` runs on short slices. -/
def insertionSort {α : Type} (less : α → α → Bool) : List α → List α
  | [] => []
  | x :: xs => insertSorted less x (insertionSort less xs)

/-! ## Handlers -/

/-- What `api.go` takes from the rest of the package and from its imports. -/
structure Env where
  less : DockerContainer → DockerContainer → Bool
  marshal : DockerContainer → String
  sorter : SortImpl DockerContainer

/-- What a handler call leaves behind: the response, how often the cluster's
`Containers` accessor was called, and the lines printed. -/
structure Outcome where
  w : ResponseWriter
  containersCalls : Nat
  stdout : List String

/-- The type `HttpApiFunc`. -/
abbrev HttpApiFunc := Cluster → ResponseWriter → Request → Outcome

/-- The loop body of `getContainersJSON`. -/
def collectStep (all : Bool) (out : Slice DockerContainer) (container : ClusterContainer) :
    Slice DockerContainer :=
  if !stringsContains container.Container.Status "Up" && !all then out
  else out.append container.Container

/-- The slice `getContainersJSON` hands to the encoder. -/
def listing (env : Env) (all : Bool) (cs : List ClusterContainer) : Slice DockerContainer :=
  let out := cs.foldl (collectStep all) (Slice.elems [])
  sortSort env.sorter (sortReverse env.less) out

/-- The flag `all` of `getContainersJSON`: `r.Form.Get("all") == "1"`. -/
def allFlag (form : Values) : Bool := form.Get "all" == "1"

/-- The handler `getContainersJSON`. -/
def getContainersJSON (env : Env) : HttpApiFunc := fun c w r =>
  match r.ParseForm with
  | .error err => ⟨httpError w err 500, 0, []⟩
  | .ok form =>
    let all := allFlag form
    ⟨jsonEncode env.marshal w (listing env all c.Containers), 1, []⟩

/-- The handler `ping`. -/
def ping : HttpApiFunc := fun _ w _ =>
  ⟨w.Write (String.mk ['O', 'K']), 0, []⟩

/-- The handler `notImplementedHandler`. -/
def notImplementedHandler : HttpApiFunc := fun _ w _ =>
  ⟨httpError w "Not supported in clustering mode." 501, 0, []⟩

/-! ## Path templates of the router -/

/-- The regular expressions the variables of the table carry: `.*` and
`[0-9.]+`. -/
inductive VarPattern where
  | dotStar
  | version
  deriving DecidableEq, Repr

/-- Reading of a variable's regular expression. -/
def VarPattern.ofChars (s : List Char) : Option VarPattern :=
  if s = ['.', '*'] then some .dotStar
  else if s = ['[', '0', '-', '9', '.', ']', '+'] then some .version
  else none

/-- The characters one repetition of the expression accepts: `.` is any
character but the line feed, `[0-9.]` a digit or a period. -/
def VarPattern.accepts : VarPattern → Char → Bool
  | .dotStar, c => c != '\n'
  | .version, c => c.isDigit || c == '.'

/-- The least number of repetitions: 0 for `*`, 1 for `+`. -/
def VarPattern.minLength : VarPattern → Nat
  | .dotStar => 0
  | .version => 1

/-- A piece of a path template: literal text, or a variable `{name:pattern}`. -/
inductive Segment where
  | lit : List Char → Segment
  | var : List Char → VarPattern → Segment
  deriving DecidableEq, Repr

/-- The text of a variable, `name:pattern`, split at the first colon. -/
def splitColon : List Char → List Char × Option (List Char)
  | [] => ([], none)
  | c :: cs =>
    if c = ':' then ([], some cs)
    else ((splitColon cs).1.cons c, (splitColon cs).2)

/-- The segment of a variable; the name and the pattern must not be empty. -/
def mkVar (text : List Char) : Option Segment :=
  match splitColon text with
  | (name, some patt) =>
    if name = [] then none
    else (VarPattern.ofChars patt).map (Segment.var name)
  | (_, none) => none

/-- Literal text as a segment list (nothing for the empty text). -/
def litSeg (l : List Char) : List Segment :=
  if l = [] then [] else [Segment.lit l]

/-- Scan of a template. `lit` is the literal text read so far (reversed);
`inVar` is the text read since an opening brace (reversed), if any. -/
def parseTemplateAux : List Char → List Char → Option (List Char) → Option (List Segment)
  | [], lit, none => some (litSeg lit.reverse)
  | [], _, some _ => none
  | c :: cs, lit, none =>
    if c = '{' then (parseTemplateAux cs [] (some [])).map (fun segs => litSeg lit.reverse ++ segs)
    else if c = '}' then none
    else parseTemplateAux cs (c :: lit) none
  | c :: cs, lit, some v =>
    if c = '}' then
      match mkVar v.reverse, parseTemplateAux cs lit none with
      | some seg, some segs => some (seg :: segs)
      | _, _ => none
    else if c = '{' then none
    else parseTemplateAux cs lit (some (c :: v))

/-- The segments of a path template. -/
def parseTemplate (tpl : List Char) : Option (List Segment) :=
  parseTemplateAux tpl [] none

/-- Some prefix of `s` of at least `n` characters, all accepted by `p`, is
followed by a rest that `k` accepts. -/
def matchVar (p : VarPattern) (k : List Char → Bool) : Nat → List Char → Bool
  | n, [] => n == 0 && k []
  | n, c :: cs => (n == 0 && k (c :: cs)) || (p.accepts c && matchVar p k (n - 1) cs)

/-- The whole of `s` matches the segments in order (the anchored regular
expression the router compiles a template to). -/
def matchSegs : List Segment → List Char → Bool
  | [], s => s.isEmpty
  | .lit l :: rest, s => startsWith s l && matchSegs rest (s.drop l.length)
  | .var _ p :: rest, s => matchVar p (matchSegs rest) p.minLength s

/-- The router accepts a path template that is empty or starts with a slash; a
route built from any other template matches nothing. -/
def templateOk (tpl : String) : Bool :=
  match tpl.data with
  | [] => true
  | c :: _ => c == '/'

/-- A path template matches a path: the template is one the router accepts and
the whole path matches its segments. The empty template matches the empty
path only. -/
def matchTemplate (tpl path : String) : Bool :=
  templateOk tpl &&
    match parseTemplate tpl.data with
    | some segs => matchSegs segs path.data
    | none => false

/-! ## Canonical paths -/

/-- The texts between the slashes of a path (Go `strings.Split(s, "/")`). -/
def splitSlash : List Char → List (List Char)
  | [] => [[]]
  | c :: cs =>
    if c = '/' then [] :: splitSlash cs
    else
      match splitSlash cs with
      | seg :: rest => (c :: seg) :: rest
      | [] => [[c]]

/-- One path element as Go `path.Clean` treats it in a rooted path: an empty
element and `.` are dropped, `..` removes the element kept last (none at the
root), any other element is kept. `stack` holds the kept elements, last
first. -/
def cleanStep (stack : List (List Char)) (seg : List Char) : List (List Char) :=
  if seg = [] ∨ seg = ['.'] then stack
  else if seg = ['.', '.'] then stack.tail
  else seg :: stack

/-- The path of the elements: each behind a slash. -/
def joinSegs (segs : List (List Char)) : List Char :=
  segs.flatMap fun s => '/' :: s

/-- Go `path.Clean` of the rooted path `/rest`. -/
def pathCleanRooted (rest : List Char) : List Char :=
  match ((splitSlash rest).foldl cleanStep []).reverse with
  | [] => ['/']
  | seg :: segs => joinSegs (seg :: segs)

/-- The router's `cleanPath`: the empty path becomes `/`, a path is rooted,
passed through `path.Clean`, and gets back a trailing slash it had. -/
def cleanPath (p : String) : String :=
  match p.data with
  | [] => "/"
  | c :: cs =>
    let np := pathCleanRooted (if c = '/' then cs else c :: cs)
    if (c :: cs).getLast? = some '/' ∧ np ≠ ['/'] then ⟨np ++ ['/']⟩ else ⟨np⟩

/-! ## The route table and the router -/

/-- The functions the route table binds. -/
inductive Handler where
  | ping
  | getContainersJSON
  | notImplementedHandler
  deriving DecidableEq, Repr

/-- The function a table value denotes. -/
def Handler.run (env : Env) : Handler → HttpApiFunc
  | .ping => Api.ping
  | .getContainersJSON => Api.getContainersJSON env
  | .notImplementedHandler => Api.notImplementedHandler

/-- The map literal `m` of `createRouter`. -/
def routeTable : List (String × List (String × Handler)) :=
  [ ("GET",
      [ ("/_ping", .ping),
        ("/events", .notImplementedHandler),
        ("/info", .notImplementedHandler),
        ("/version", .notImplementedHandler),
        ("/images/json", .notImplementedHandler),
        ("/images/viz", .notImplementedHandler),
        ("/images/search", .notImplementedHandler),
        ("/images/get", .notImplementedHandler),
        ("/images/{name:.*}/get", .notImplementedHandler),
        ("/images/{name:.*}/history", .notImplementedHandler),
        ("/images/{name:.*}/json", .notImplementedHandler),
        ("/containers/ps", .getContainersJSON),
        ("/containers/json", .getContainersJSON),
        ("/containers/{name:.*}/export", .notImplementedHandler),
        ("/containers/{name:.*}/changes", .notImplementedHandler),
        ("/containers/{name:.*}/json", .notImplementedHandler),
        ("/containers/{name:.*}/top", .notImplementedHandler),
        ("/containers/{name:.*}/logs", .notImplementedHandler),
        ("/containers/{name:.*}/attach/ws", .notImplementedHandler) ]),
    ("POST",
      [ ("/auth", .notImplementedHandler),
        ("/commit", .notImplementedHandler),
        ("/build", .notImplementedHandler),
        ("/images/create", .notImplementedHandler),
        ("/images/load", .notImplementedHandler),
        ("/images/{name:.*}/push", .notImplementedHandler),
        ("/images/{name:.*}/tag", .notImplementedHandler),
        ("/containers/create", .notImplementedHandler),
        ("/containers/{name:.*}/kill", .notImplementedHandler),
        ("/containers/{name:.*}/pause", .notImplementedHandler),
        ("/containers/{name:.*}/unpause", .notImplementedHandler),
        ("/containers/{name:.*}/restart", .notImplementedHandler),
        ("/containers/{name:.*}/start", .notImplementedHandler),
        ("/containers/{name:.*}/stop", .notImplementedHandler),
        ("/containers/{name:.*}/wait", .notImplementedHandler),
        ("/containers/{name:.*}/resize", .notImplementedHandler),
        ("/containers/{name:.*}/attach", .notImplementedHandler),
        ("/containers/{name:.*}/copy", .notImplementedHandler),
        ("/containers/{name:.*}/exec", .notImplementedHandler),
        ("/exec/{name:.*}/start", .notImplementedHandler),
        ("/exec/{name:.*}/resize", .notImplementedHandler) ]),
    ("DELETE",
      [ ("/containers/{name:.*}", .notImplementedHandler),
        ("/images/{name:.*}", .notImplementedHandler) ]),
    ("OPTIONS",
      [ ("", .notImplementedHandler) ]) ]

/-- One registered route: `r.Path(template).Methods(method).HandlerFunc(wrap)`,
where `wrap` calls the captured `localFct`. -/
structure Route where
  template : String
  method : String
  localFct : Handler
  deriving DecidableEq, Repr

/-- The router: its routes in registration order. -/
structure Router where
  routes : List Route
  deriving DecidableEq, Repr

/-- The version segment `createRouter` puts before a route. -/
def versionSegment : String := "/v{version:[0-9.]+}"

/-- The two registrations of one loop iteration of `createRouter`. -/
def register (method route : String) (fct : Handler) : List Route :=
  [ ⟨versionSegment ++ route, method, fct⟩, ⟨route, method, fct⟩ ]

/-- The loops of `createRouter` over a table `m`, in the order `m` lists it. -/
def createRouterFrom (m : List (String × List (String × Handler))) : Router :=
  ⟨m.flatMap fun mr => mr.2.flatMap fun rf => register mr.1 rf.1 rf.2⟩

/-- The router `createRouter` builds (the table iterated in source order). -/
def createRouter : Router := createRouterFrom routeTable

/-- The entries (method, route, function) of a table. -/
def entriesOf (m : List (String × List (String × Handler))) : List (String × String × Handler) :=
  m.flatMap fun mr => mr.2.map fun rf => (mr.1, rf.1, rf.2)

/-- A route matches a request method and path. -/
def Route.matches (rt : Route) (method path : String) : Bool :=
  rt.method == method && matchTemplate rt.template path

/-- The router's choice: the first route, in registration order, that matches. -/
def Router.Match (rt : Router) (method path : String) : Option Route :=
  rt.routes.find? fun r => r.matches method path

/-- The closure `wrap` of `createRouter`: it prints the method and the request
URI, then calls `localFct(c, w, r)`. -/
def wrap (env : Env) (c : Cluster) (localFct : Handler) (w : ResponseWriter) (r : Request) :
    Outcome :=
  let o := localFct.run env c w r
  { o with stdout := ("-> " ++ r.Method ++ " " ++ r.RequestURI ++ "\n") :: o.stdout }

/-- The router's `ServeHTTP`. A path that `cleanPath` changes is answered with
a redirect (status 301, `Location` the URL with the cleaned path) before any
route is tried. Otherwise the first matching route's `wrap` serves the
request; when no route matches, the answer is 405 if some route's template
matches the path (only the method differs) and `404 page not found` if none
does. -/
def Router.ServeHTTP (rt : Router) (env : Env) (c : Cluster) (w : ResponseWriter)
    (r : Request) : Outcome :=
  if cleanPath r.Path ≠ r.Path then
    ⟨(w.SetLocation (r.urlWithPath (cleanPath r.Path))).WriteHeader 301, 0, []⟩
  else
    match rt.Match r.Method r.Path with
    | some route => wrap env c route.localFct w r
    | none =>
      if rt.routes.any fun route => matchTemplate route.template r.Path then
        ⟨w.WriteHeader 405, 0, []⟩
      else ⟨httpError w "404 page not found" 404, 0, []⟩

/-! ## Auxiliary definitions for the proofs and the examples -/

/-- The segments start with literal text that starts with a slash, or there are
none. -/
def slashHeaded : List Segment → Bool
  | [] => true
  | .lit (c :: _) :: _ => c == '/'
  | _ => false

/-- The segments a template parses to match the text (no check of the
template's first character). -/
def templateAccepts (tpl : String) (s : List Char) : Bool :=
  match parseTemplate tpl.data with
  | some segs => matchSegs segs s
  | none => false

/-- The template cannot match a path that starts with `/v` and a version
character: it is not a path template, or its leading literal text differs
within its first three characters. -/
def missesVersion (tpl : String) : Bool :=
  match tpl.data with
  | [] => true
  | _ :: _ =>
    match parseTemplate tpl.data with
    | none => true
    | some (.lit (c0 :: c1 :: c2 :: _) :: _) =>
      !(c0 == '/' && c1 == 'v' && VarPattern.version.accepts c2)
    | some _ => false

/-- The check on one table entry used for a versioned target path
`/v<version>` followed by `P`, whose routes are bound to `h`. -/
def versionedOk (P : String) (h : Handler) (e : String × String × Handler) : Bool :=
  missesVersion e.2.1 &&
    (match parseTemplate e.2.1.data with
      | some segs => slashHeaded segs
      | none => true) &&
    (!(e.1 == "GET" && templateAccepts e.2.1 P.data) || e.2.2 == h)

/-- The entries of the table bound to an implemented function. -/
def implementedEntries : List (String × String × Handler) :=
  [ ("GET", "/_ping", .ping),
    ("GET", "/containers/ps", .getContainersJSON),
    ("GET", "/containers/json", .getContainersJSON) ]

/-- Any two routes of the router that match a request are bound to the same
function. -/
def Router.Agrees (R : Router) : Prop :=
  ∀ (method path : String) (r1 r2 : Route), r1 ∈ R.routes → r2 ∈ R.routes →
    r1.matches method path = true → r2.matches method path = true → r1.localFct = r2.localFct

/-- The template has a variable called `name`. -/
def hasNameVar (tpl : String) : Bool := stringsContains tpl "{name:.*}"

/-- The text before and after the first `{name:.*}` of a template. -/
def splitAtName : List Char → Option (List Char × List Char)
  | [] => none
  | c :: cs =>
    if startsWith (c :: cs) "{name:.*}".data then some ([], (c :: cs).drop 9)
    else (splitAtName cs).map fun ab => (c :: ab.1, ab.2)

/-- The check on one table entry: a template with a `name` variable parses to
the literal text before it, the variable, and the literal text after it. -/
def nameShapeOk (e : String × String × Handler) : Bool :=
  match splitAtName e.2.1.data with
  | none => true
  | some (a, b) =>
    decide (parseTemplate e.2.1.data =
      some (Segment.lit a :: Segment.var "name".data .dotStar :: litSeg b)) &&
    startsWith a ['/']

/-- A comparison by creation time, for the examples. -/
def lessByCreated (a b : DockerContainer) : Bool := decide (a.Created < b.Created)

/-- A container for the examples. -/
def mkContainer (id : String) (created : Int) (status : String) : ClusterContainer :=
  ⟨⟨id, [], "busybox", "sh", created, status⟩, "node-1"⟩

/-- The cluster of the specification's example: two running containers and one
that has exited. -/
def exampleCluster : Cluster :=
  ⟨[mkContainer "a" 1 "Up 2 hours", mkContainer "b" 2 "Exited (0) 1 hour ago",
    mkContainer "c" 3 "Up 10 minutes"]⟩

/-- A `GET` request with the given path and parsed form. -/
def getRequest (path : String) (form : Values) : Request :=
  ⟨"GET", path, path, .ok form, fun p => p⟩

/-- The length of the path of the elements: each element and its slash. -/
def segWeight (segs : List (List Char)) : Nat := (segs.map fun s => s.length + 1).sum

/-- A path element that `path.Clean` keeps: not empty, not `.` and not `..`. -/
def plainSeg (s : List Char) : Prop := s ≠ [] ∧ s ≠ ['.'] ∧ s ≠ ['.', '.']

/-- An `OPTIONS` request with the given path and an empty form. -/
def optionsRequest (path : String) : Request :=
  ⟨"OPTIONS", path, path, .ok [], fun p => p⟩

/-! ## Lemmas: strings and slices -/

theorem startsWith_iff (s p : List Char) : startsWith s p = true ↔ ∃ t, s = p ++ t := by
  induction p generalizing s with
  | nil => simp [startsWith]
  | cons d p ih =>
    cases s with
    | nil => simp [startsWith]
    | cons c s =>
      simp only [startsWith, Bool.and_eq_true, beq_iff_eq, ih, List.cons_append, List.cons.injEq]
      constructor
      · rintro ⟨rfl, t, rfl⟩
        exact ⟨t, rfl, rfl⟩
      · rintro ⟨t, rfl, rfl⟩
        exact ⟨rfl, t, rfl⟩

theorem containsChars_iff (s sub : List Char) :
    containsChars s sub = true ↔ ∃ a b, s = a ++ sub ++ b := by
  induction s with
  | nil =>
    unfold containsChars
    simp only [Bool.or_false, startsWith_iff]
    constructor
    · rintro ⟨t, h⟩
      exact ⟨[], t, by simpa using h⟩
    · rintro ⟨a, b, h⟩
      have h1 : a ++ sub ++ b = [] := h.symm
      simp only [List.append_eq_nil] at h1
      exact ⟨[], by simp [h1.1.2]⟩
  | cons c s ih =>
    unfold containsChars
    simp only [Bool.or_eq_true, startsWith_iff, ih]
    constructor
    · rintro (⟨t, h⟩ | ⟨a, b, h⟩)
      · exact ⟨[], t, by simpa using h⟩
      · exact ⟨c :: a, b, by simp [h]⟩
    · rintro ⟨a, b, h⟩
      cases a with
      | nil => exact Or.inl ⟨b, by simpa using h⟩
      | cons x a =>
        simp only [List.cons_append, List.cons.injEq] at h
        exact Or.inr ⟨a, b, h.2⟩

theorem stringsContains_iff (s substr : String) :
    stringsContains s substr = true ↔ ∃ a b : String, s = a ++ substr ++ b := by
  unfold stringsContains
  rw [containsChars_iff]
  constructor
  · rintro ⟨a, b, h⟩
    refine ⟨⟨a⟩, ⟨b⟩, ?_⟩
    apply String.ext
    simpa using h
  · rintro ⟨a, b, h⟩
    exact ⟨a.data, b.data, by rw [h]; simp⟩

theorem foldl_collectStep (all : Bool) (cs : List ClusterContainer)
    (acc : List DockerContainer) :
    cs.foldl (collectStep all) (Slice.elems acc) =
      Slice.elems (acc ++ (cs.filter fun k =>
        stringsContains k.Container.Status "Up" || all).map (·.Container)) := by
  induction cs generalizing acc with
  | nil => simp
  | cons k cs ih =>
    simp only [List.foldl_cons, collectStep, Slice.append, Slice.toList]
    by_cases h : (stringsContains k.Container.Status "Up" || all) = true
    · have h1 : (!stringsContains k.Container.Status "Up" && !all) = false := by
        cases hs : stringsContains k.Container.Status "Up" <;> cases ha : all <;> simp_all
      simp [h1, ih, List.filter_cons, h]
    · have h1 : (!stringsContains k.Container.Status "Up" && !all) = true := by
        cases hs : stringsContains k.Container.Status "Up" <;> cases ha : all <;> simp_all
      simp [h1, ih, List.filter_cons, h]

/-- The slice handed to the encoder is never nil; its elements are the sorted
selection. -/
theorem listing_eq (env : Env) (all : Bool) (cs : List ClusterContainer) :
    listing env all cs =
      Slice.elems (env.sorter.sort (sortReverse env.less)
        ((cs.filter fun k => stringsContains k.Container.Status "Up" || all).map
          (·.Container))) := by
  simp [listing, foldl_collectStep, sortSort]

theorem sort_nil {α : Type} (S : SortImpl α) (less : α → α → Bool) : S.sort less [] = [] :=
  List.Perm.eq_nil (S.perm less [])

theorem StrictWeakOrder.reverse {α : Type} {less : α → α → Bool} (h : StrictWeakOrder less) :
    StrictWeakOrder (sortReverse less) where
  irrefl := h.irrefl
  trans := fun a b c hab hbc => h.trans c b a hbc hab
  incomp_trans := fun a b c h1 h2 h3 h4 =>
    h.incomp_trans c b a h3 h4 h1 h2

/-- Under a strict weak order, "not less" is transitive. -/
theorem StrictWeakOrder.not_less_trans {α : Type} {less : α → α → Bool}
    (h : StrictWeakOrder less) {a b c : α} (hba : less b a = false) (hcb : less c b = false) :
    less c a = false := by
  cases hca : less c a with
  | false => rfl
  | true =>
    cases hab : less a b with
    | true =>
      have := h.trans c a b hca hab
      simp [this] at hcb
    | false =>
      cases hbc : less b c with
      | true =>
        have := h.trans b c a hbc hca
        simp [this] at hba
      | false =>
        have := (h.incomp_trans a b c hab hba hbc hcb).2
        simp [this] at hca

theorem code_write (w : ResponseWriter) (b : String) (h : w.status = none) :
    (w.Write b).code = 200 ∧ (w.Write b).body = w.body ++ b := by
  simp [ResponseWriter.Write, ResponseWriter.WriteHeader, ResponseWriter.code, h]

theorem code_httpError (w : ResponseWriter) (e : String) (n : Nat) (h : w.status = none) :
    (httpError w e n).code = n ∧ (httpError w e n).body = w.body ++ (e ++ "\n") := by
  simp [httpError, ResponseWriter.Write, ResponseWriter.WriteHeader, ResponseWriter.code, h]

/-! ## Insertion sort meets the contract of `sort.Sort` -/

theorem insertSorted_perm {α : Type} (less : α → α → Bool) (x : α) (l : List α) :
    (insertSorted less x l).Perm (x :: l) := by
  induction l with
  | nil => simp [insertSorted]
  | cons y ys ih =>
    simp only [insertSorted]
    split
    · exact List.Perm.refl _
    · exact (List.Perm.cons y ih).trans (List.Perm.swap x y ys)

theorem insertionSort_perm {α : Type} (less : α → α → Bool) (l : List α) :
    (insertionSort less l).Perm l := by
  induction l with
  | nil => simp [insertionSort]
  | cons x xs ih =>
    simp only [insertionSort]
    exact (insertSorted_perm less x _).trans (List.Perm.cons x ih)

theorem insertSorted_pairwise {α : Type} {less : α → α → Bool} (h : StrictWeakOrder less)
    (x : α) (l : List α) (hl : l.Pairwise fun a b => less b a = false) :
    (insertSorted less x l).Pairwise fun a b => less b a = false := by
  induction l with
  | nil => simp [insertSorted]
  | cons y ys ih =>
    have hy := List.pairwise_cons.mp hl
    simp only [insertSorted]
    split
    · rename_i hxy
      have hyx : less y x = false := by
        cases hyx : less y x with
        | false => rfl
        | true =>
          have := h.trans x y x hxy hyx
          simp [h.irrefl x] at this
      refine List.pairwise_cons.mpr ⟨?_, hl⟩
      intro b hb
      rcases List.mem_cons.mp hb with rfl | hb
      · exact hyx
      · exact h.not_less_trans hyx (hy.1 b hb)
    · rename_i hxy
      have hxy1 : less x y = false := by simpa using hxy
      refine List.pairwise_cons.mpr ⟨?_, ih hy.2⟩
      intro b hb
      rcases List.mem_cons.mp ((insertSorted_perm less x ys).subset hb) with rfl | hb
      · exact hxy1
      · exact hy.1 b hb

theorem insertionSort_pairwise {α : Type} {less : α → α → Bool} (h : StrictWeakOrder less)
    (l : List α) : (insertionSort less l).Pairwise fun a b => less b a = false := by
  induction l with
  | nil => simp [insertionSort]
  | cons x xs ih => exact insertSorted_pairwise h x _ ih

/-- Insertion sort as an implementation of `sort.Sort`. -/
def insertionSortImpl (α : Type) : SortImpl α where
  sort := insertionSort
  perm := insertionSort_perm
  sorted := fun _ h xs => insertionSort_pairwise h xs

/-- An environment for the examples: order by creation time, render a container
as its quoted identifier, sort by insertion. -/
def exampleEnv : Env where
  less := lessByCreated
  marshal := fun d => "\"" ++ d.Id ++ "\""
  sorter := insertionSortImpl DockerContainer

theorem lessByCreated_strictWeakOrder : StrictWeakOrder lessByCreated where
  irrefl := by intro a; simp [lessByCreated]
  trans := by
    intro a b c h1 h2
    simp only [lessByCreated, decide_eq_true_eq] at *
    omega
  incomp_trans := by
    intro a b c h1 h2 h3 h4
    simp only [lessByCreated, decide_eq_false_iff_not, not_lt] at *
    constructor <;> omega

/-! ## The container listing -/

theorem getContainersJSON_ok (env : Env) (c : Cluster) (w : ResponseWriter) (r : Request)
    (form : Values) (h : r.ParseForm = .ok form) :
    getContainersJSON env c w r =
      ⟨jsonEncode env.marshal w (listing env (allFlag form) c.Containers), 1, []⟩ := by
  simp [getContainersJSON, h]

theorem getContainersJSON_error (env : Env) (c : Cluster) (w : ResponseWriter) (r : Request)
    (err : String) (h : r.ParseForm = .error err) :
    getContainersJSON env c w r = ⟨httpError w err 500, 0, []⟩ := by
  simp [getContainersJSON, h]

theorem allFlag_iff (f : Values) :
    allFlag f = true ↔ ∃ vs, f.lookup "all" = some ("1" :: vs) := by
  unfold allFlag Values.Get
  split
  · rename_i x vs hl
    simp only [beq_iff_eq, hl, Option.some.injEq, List.cons.injEq]
    constructor
    · rintro rfl
      exact ⟨vs, rfl, rfl⟩
    · rintro ⟨_, h1, _⟩
      exact h1
  · rename_i hl
    constructor
    · intro h
      exact absurd h (by decide)
    · rintro ⟨vs, h⟩
      exact absurd h (hl "1" vs)

/-- C1: when the form parses, the sequence `getContainersJSON` encodes is a
permutation of the snapshot's containers whose `Status` contains the substring
`"Up"` (case-sensitive) or for which the `all` flag is true: every included
container occurs as often as in the snapshot, and with the flag false no
container whose `Status` lacks `"Up"` occurs. -/
theorem getContainersJSON_encodes_included (env : Env) (c : Cluster) (w : ResponseWriter)
    (r : Request) (form : Values) (h : r.ParseForm = .ok form) :
    ∃ out : List DockerContainer,
      listing env (allFlag form) c.Containers = Slice.elems out ∧
      (getContainersJSON env c w r).w = jsonEncode env.marshal w (Slice.elems out) ∧
      out.Perm ((c.Containers.map (·.Container)).filter fun d =>
        stringsContains d.Status "Up" || allFlag form) ∧
      (∀ d : DockerContainer,
        stringsContains d.Status "Up" = true ↔ ∃ a b : String, d.Status = a ++ "Up" ++ b) ∧
      (∀ d : DockerContainer, (stringsContains d.Status "Up" || allFlag form) = true →
        out.count d = (c.Containers.map (·.Container)).count d) ∧
      (allFlag form = false → ∀ d ∈ out, ∃ a b : String, d.Status = a ++ "Up" ++ b) := by
  have hperm : (env.sorter.sort (sortReverse env.less)
      ((c.Containers.filter fun k => stringsContains k.Container.Status "Up" || allFlag form).map
        (·.Container))).Perm
      ((c.Containers.map (·.Container)).filter fun d =>
        stringsContains d.Status "Up" || allFlag form) := by
    refine (env.sorter.perm _ _).trans ?_
    rw [List.filter_map]
    exact List.Perm.refl _
  refine ⟨_, listing_eq env _ _, ?_, hperm, fun d => stringsContains_iff _ _, ?_, ?_⟩
  · rw [getContainersJSON_ok env c w r form h, listing_eq]
  · intro d hd
    rw [hperm.count_eq, List.count_filter]
    simpa using hd
  · intro hall d hd
    have hmem := hperm.subset hd
    rw [List.mem_filter] at hmem
    have h2 := hmem.2
    rw [hall] at h2
    exact (stringsContains_iff _ _).mp (by simpa using h2)

/-- C2: when the form parses and the `Less` of `ContainerSorter` is a strict
weak order, the encoded sequence is in descending order: for positions
`i < j` the element at `i` is not less than the element at `j`, that is,
the sequence read backwards is ascending. -/
theorem getContainersJSON_descending (env : Env) (c : Cluster) (w : ResponseWriter)
    (r : Request) (form : Values) (h : r.ParseForm = .ok form)
    (hless : StrictWeakOrder env.less) :
    ∃ out : List DockerContainer,
      listing env (allFlag form) c.Containers = Slice.elems out ∧
      (getContainersJSON env c w r).w = jsonEncode env.marshal w (Slice.elems out) ∧
      (∀ (i j : Fin out.length), i < j → env.less (out.get i) (out.get j) = false) ∧
      out.Pairwise (fun a b => env.less a b = false) ∧
      out.reverse.Pairwise (fun a b => env.less b a = false) := by
  have hs := env.sorter.sorted (sortReverse env.less) hless.reverse
    ((c.Containers.filter fun k => stringsContains k.Container.Status "Up" || allFlag form).map
      (·.Container))
  refine ⟨_, listing_eq env _ _, ?_, ?_, hs, ?_⟩
  · rw [getContainersJSON_ok env c w r form h, listing_eq]
  · intro i j hij
    exact List.pairwise_iff_get.mp hs i j hij
  · rw [List.pairwise_reverse]
    exact hs

/-- C3: the `all` flag is true exactly when the first form value of `all` is the
string `"1"`; a request whose first `all` value is any other string gets the
same response as a request without the parameter. -/
theorem getContainersJSON_all_only_one (env : Env) (c : Cluster) (w : ResponseWriter)
    (r r0 : Request) (form form0 : Values) (x : String) (rest : List String)
    (hr : r.ParseForm = .ok form) (hr0 : r0.ParseForm = .ok form0)
    (hx : form.lookup "all" = some (x :: rest)) (hne : x ≠ "1")
    (habs : form0.lookup "all" = none) :
    (∀ f : Values, allFlag f = true ↔ ∃ vs, f.lookup "all" = some ("1" :: vs)) ∧
      allFlag form = false ∧ allFlag form0 = false ∧
      getContainersJSON env c w r = getContainersJSON env c w r0 := by
  have h1 : allFlag form = false := by
    cases hf : allFlag form with
    | false => rfl
    | true =>
      obtain ⟨vs, hvs⟩ := (allFlag_iff form).mp hf
      rw [hx] at hvs
      simp only [Option.some.injEq, List.cons.injEq] at hvs
      exact absurd hvs.1 hne
  have h0 : allFlag form0 = false := by
    cases hf : allFlag form0 with
    | false => rfl
    | true =>
      obtain ⟨vs, hvs⟩ := (allFlag_iff form0).mp hf
      rw [habs] at hvs
      exact absurd hvs (by simp)
  refine ⟨allFlag_iff, h1, h0, ?_⟩
  rw [getContainersJSON_ok env c w r form hr, getContainersJSON_ok env c w r0 form0 hr0, h1, h0]

/-- C4: `getContainersJSON` answers 500 exactly when parsing the form fails; the
body is then the error text (as a line, so never empty), the `Containers`
accessor is not called and the answer depends neither on the cluster nor on
how containers are rendered; whenever the form parses the status is 200. -/
theorem getContainersJSON_status (env : Env) (c : Cluster) (r : Request) :
    ((getContainersJSON env c .fresh r).w.code = 500 ↔ ∃ err, r.ParseForm = .error err) ∧
      (∀ err, r.ParseForm = .error err →
        (getContainersJSON env c .fresh r).w.body = err ++ "\n" ∧
        (getContainersJSON env c .fresh r).w.body ≠ "" ∧
        (getContainersJSON env c .fresh r).containersCalls = 0 ∧
        ∀ (env1 : Env) (c1 : Cluster),
          getContainersJSON env1 c1 .fresh r = getContainersJSON env c .fresh r) ∧
      (∀ form, r.ParseForm = .ok form →
        (getContainersJSON env c .fresh r).w.code = 200 ∧
        (getContainersJSON env c .fresh r).containersCalls = 1) := by
  refine ⟨?_, ?_, ?_⟩
  · cases hp : r.ParseForm with
    | error err =>
      rw [getContainersJSON_error env c _ r err hp]
      simp [(code_httpError ResponseWriter.fresh err 500 rfl).1]
    | ok form =>
      rw [getContainersJSON_ok env c _ r form hp]
      simp [jsonEncode, (code_write ResponseWriter.fresh _ rfl).1]
  · intro err hp
    rw [getContainersJSON_error env c _ r err hp]
    refine ⟨?_, ?_, rfl, ?_⟩
    · rw [(code_httpError ResponseWriter.fresh err 500 rfl).2]
      apply String.ext
      simp [ResponseWriter.fresh]
    · rw [(code_httpError ResponseWriter.fresh err 500 rfl).2]
      intro hb
      have := congrArg String.data hb
      simp [ResponseWriter.fresh] at this
    · intro env1 c1
      rw [getContainersJSON_error env1 c1 _ r err hp]
  · intro form hp
    rw [getContainersJSON_ok env c _ r form hp]
    exact ⟨(code_write ResponseWriter.fresh _ rfl).1, rfl⟩

/-- C5: for every cluster and every request `ping` answers 200 with the body
`OK`, two bytes long; the answer is the same for all clusters and requests,
and the cluster is not consulted. -/
theorem ping_ok (c : Cluster) (r : Request) :
    (ping c .fresh r).w.code = 200 ∧
      (ping c .fresh r).w.body = "OK" ∧
      (ping c .fresh r).w.body.utf8ByteSize = 2 ∧
      (ping c .fresh r).containersCalls = 0 ∧
      (ping ⟨[]⟩ .fresh r).w = (ping c .fresh r).w ∧
      ∀ (c1 : Cluster) (r1 : Request), ping c1 .fresh r1 = ping c .fresh r := by
  have hw : (ping c .fresh r).w = ResponseWriter.fresh.Write "OK" := rfl
  refine ⟨?_, ?_, ?_, rfl, rfl, fun _ _ => rfl⟩
  · rw [hw]; decide
  · rw [hw]; decide
  · rw [hw]; decide

/-- C8: when no container is included (the snapshot is empty, or the `all`
flag is false and no `Status` contains `"Up"`), the answer has status 200 and
its body is the encoding of the empty array, `[]`, not of the nil slice,
`null`. -/
theorem getContainersJSON_empty_array (env : Env) (c : Cluster) (r : Request) (form : Values)
    (h : r.ParseForm = .ok form)
    (hnone : c.Containers = [] ∨ (allFlag form = false ∧
      ∀ k ∈ c.Containers, stringsContains k.Container.Status "Up" = false)) :
    listing env (allFlag form) c.Containers = Slice.elems [] ∧
      (getContainersJSON env c .fresh r).w.code = 200 ∧
      (getContainersJSON env c .fresh r).w.body = "[]\n" ∧
      (getContainersJSON env c .fresh r).w.body =
        jsonMarshal env.marshal (Slice.elems []) ++ "\n" ∧
      (getContainersJSON env c .fresh r).w.body ≠
        jsonMarshal env.marshal Slice.null ++ "\n" := by
  have hl : listing env (allFlag form) c.Containers = Slice.elems [] := by
    rw [listing_eq]
    have hf : (c.Containers.filter fun k =>
        stringsContains k.Container.Status "Up" || allFlag form) = [] := by
      rcases hnone with h0 | ⟨ha, hk⟩
      · rw [h0]; rfl
      · rw [List.filter_eq_nil_iff]
        intro k hkm
        simp [ha, hk k hkm]
    rw [hf]
    simp [sort_nil]
  have hw : (getContainersJSON env c .fresh r).w =
      ResponseWriter.fresh.Write ("[]" ++ "\n") := by
    rw [getContainersJSON_ok env c _ r form h, hl]
    rfl
  refine ⟨hl, ?_, ?_, ?_, ?_⟩
  · rw [hw]; decide
  · rw [hw]; decide
  · rw [hw]
    simp only [jsonMarshal, List.map_nil]
    decide
  · rw [hw]
    simp only [jsonMarshal]
    decide

/-! ## Lemmas: template matching -/

theorem matchVar_iff (p : VarPattern) (k : List Char → Bool) (n : Nat) (s : List Char) :
    matchVar p k n s = true ↔
      ∃ a b, s = a ++ b ∧ n ≤ a.length ∧ (∀ c ∈ a, p.accepts c = true) ∧ k b = true := by
  induction s generalizing n with
  | nil =>
    simp only [matchVar, Bool.and_eq_true, beq_iff_eq]
    constructor
    · rintro ⟨rfl, hk⟩
      exact ⟨[], [], rfl, Nat.le_refl _, by simp, hk⟩
    · rintro ⟨a, b, hab, hn, _, hk⟩
      have hab1 : a ++ b = [] := hab.symm
      simp only [List.append_eq_nil] at hab1
      obtain ⟨rfl, rfl⟩ := hab1
      exact ⟨by simpa using hn, hk⟩
  | cons c cs ih =>
    simp only [matchVar, Bool.or_eq_true, Bool.and_eq_true, beq_iff_eq, ih]
    constructor
    · rintro (⟨rfl, hk⟩ | ⟨hc, a, b, rfl, hn, ha, hk⟩)
      · exact ⟨[], c :: cs, rfl, Nat.le_refl _, by simp, hk⟩
      · refine ⟨c :: a, b, rfl, by simp only [List.length_cons]; omega, ?_, hk⟩
        intro d hd
        rcases List.mem_cons.mp hd with rfl | hd
        · exact hc
        · exact ha d hd
    · rintro ⟨a, b, hab, hn, ha, hk⟩
      cases a with
      | nil =>
        left
        refine ⟨by simpa using hn, ?_⟩
        have hb : b = c :: cs := by simpa using hab.symm
        rw [← hb]
        exact hk
      | cons x a =>
        right
        simp only [List.cons_append, List.cons.injEq] at hab
        obtain ⟨rfl, rfl⟩ := hab
        refine ⟨ha _ (List.mem_cons_self _ _), a, b, rfl, ?_, ?_, hk⟩
        · simp only [List.length_cons] at hn; omega
        · intro d hd
          exact ha d (List.mem_cons_of_mem _ hd)

theorem matchSegs_nil (s : List Char) : matchSegs [] s = true ↔ s = [] := by
  simp [matchSegs]

theorem matchSegs_lit (l : List Char) (rest : List Segment) (s : List Char) :
    matchSegs (.lit l :: rest) s = true ↔ ∃ t, s = l ++ t ∧ matchSegs rest t = true := by
  simp only [matchSegs, Bool.and_eq_true, startsWith_iff]
  constructor
  · rintro ⟨⟨t, rfl⟩, h⟩
    exact ⟨t, rfl, by simpa using h⟩
  · rintro ⟨t, rfl, h⟩
    exact ⟨⟨t, rfl⟩, by simpa using h⟩

theorem matchSegs_var (x : List Char) (p : VarPattern) (rest : List Segment) (s : List Char) :
    matchSegs (.var x p :: rest) s = true ↔
      ∃ a b, s = a ++ b ∧ p.minLength ≤ a.length ∧ (∀ c ∈ a, p.accepts c = true) ∧
        matchSegs rest b = true := by
  simp only [matchSegs, matchVar_iff]

theorem parseTemplate_versioned (t : List Char) :
    parseTemplate (versionSegment.data ++ t) =
      (parseTemplate t).map fun segs =>
        Segment.lit ['/', 'v'] :: Segment.var "version".data .version :: segs := by
  cases h : parseTemplate t with
  | none =>
    simp [parseTemplate] at h
    simp [parseTemplate, versionSegment, parseTemplateAux, h]
  | some segs => 
    simp [parseTemplate] at h
    simp [parseTemplate, versionSegment, parseTemplateAux, h, mkVar, splitColon, VarPattern.ofChars, litSeg]

/-! ## Lemmas: the routes of the table -/

theorem mem_routes_iff (m : List (String × List (String × Handler))) (r : Route) :
    r ∈ (createRouterFrom m).routes ↔
      ∃ e ∈ entriesOf m, r = ⟨versionSegment ++ e.2.1, e.1, e.2.2⟩ ∨ r = ⟨e.2.1, e.1, e.2.2⟩ := by
  simp only [createRouterFrom, entriesOf, register, List.mem_flatMap, List.mem_map,
    List.mem_cons, List.mem_singleton, List.not_mem_nil, or_false]
  constructor
  · rintro ⟨mr, hmr, rf, hrf, h⟩
    exact ⟨(mr.1, rf.1, rf.2), ⟨mr, hmr, rf, hrf, rfl⟩, h⟩
  · rintro ⟨e, ⟨mr, hmr, rf, hrf, rfl⟩, h⟩
    exact ⟨mr, hmr, rf, hrf, h⟩

theorem matchTemplate_iff (tpl path : String) :
    matchTemplate tpl path = true ↔
      templateOk tpl = true ∧
        ∃ segs, parseTemplate tpl.data = some segs ∧ matchSegs segs path.data = true := by
  unfold matchTemplate
  cases hp : parseTemplate tpl.data with
  | none => simp
  | some segs => simp

theorem templateOk_of_slash (tpl : String) (t : List Char) (h : tpl.data = '/' :: t) :
    templateOk tpl = true := by
  simp [templateOk, h]

theorem templateOk_versioned (p : String) : templateOk (versionSegment ++ p) = true :=
  templateOk_of_slash _ _ (by rw [String.data_append]; rfl)

theorem matchTemplate_versioned_iff (p path : String) :
    matchTemplate (versionSegment ++ p) path = true ↔
      ∃ segs, parseTemplate p.data = some segs ∧
        ∃ ver b, path.data = '/' :: 'v' :: (ver ++ b) ∧ ver ≠ [] ∧
          (∀ c ∈ ver, VarPattern.version.accepts c = true) ∧ matchSegs segs b = true := by
  rw [matchTemplate_iff, String.data_append, parseTemplate_versioned]
  constructor
  · rintro ⟨_, segs, hs, hm⟩
    cases hp : parseTemplate p.data with
    | none => simp [hp] at hs
    | some segs0 =>
      simp only [hp, Option.map_some', Option.some.injEq] at hs
      subst hs
      rw [matchSegs_lit] at hm
      obtain ⟨t, ht, hm⟩ := hm
      rw [matchSegs_var] at hm
      obtain ⟨a, b, rfl, hlen, hacc, hm⟩ := hm
      refine ⟨segs0, rfl, a, b, by simpa using ht, ?_, hacc, hm⟩
      intro ha
      simp [ha, VarPattern.minLength] at hlen
  · rintro ⟨segs, hs, ver, b, hpath, hne, hacc, hm⟩
    refine ⟨templateOk_versioned p, _, by rw [hs]; rfl, ?_⟩
    rw [matchSegs_lit]
    refine ⟨ver ++ b, by simpa using hpath, ?_⟩
    rw [matchSegs_var]
    refine ⟨ver, b, rfl, ?_, hacc, hm⟩
    cases ver with
    | nil => exact absurd rfl hne
    | cons c cs => simp [VarPattern.minLength]

theorem slashHeaded_matchSegs (segs : List Segment) (b : List Char)
    (hs : slashHeaded segs = true) (hm : matchSegs segs b = true) :
    b = [] ∨ ∃ t, b = '/' :: t := by
  match segs, hs with
  | [], _ => exact Or.inl ((matchSegs_nil b).mp hm)
  | .lit (c :: l) :: rest, hs =>
    rw [matchSegs_lit] at hm
    obtain ⟨t, rfl, _⟩ := hm
    simp only [slashHeaded, beq_iff_eq] at hs
    subst hs
    exact Or.inr ⟨l ++ t, rfl⟩

/-- The version of a versioned path is determined: a run of version characters
followed by a rest that is empty or starts with a slash. -/
theorem version_split (ver a b P : List Char)
    (hver : ∀ c ∈ ver, VarPattern.version.accepts c = true)
    (ha : ∀ c ∈ a, VarPattern.version.accepts c = true)
    (h : ver ++ '/' :: P = a ++ b) (hb : b = [] ∨ ∃ t, b = '/' :: t) :
    a = ver ∧ b = '/' :: P := by
  have hslash : VarPattern.version.accepts '/' = false := by decide
  induction ver generalizing a with
  | nil =>
    cases a with
    | nil => exact ⟨rfl, by simpa using h.symm⟩
    | cons x a =>
      simp only [List.nil_append, List.cons_append, List.cons.injEq] at h
      have := ha x (List.mem_cons_self _ _)
      rw [← h.1, hslash] at this
      exact absurd this (by decide)
  | cons v ver ih =>
    cases a with
    | nil =>
      simp only [List.nil_append, List.cons_append] at h
      rcases hb with rfl | ⟨t, rfl⟩
      · exact absurd h (by simp)
      · simp only [List.cons.injEq] at h
        have := hver v (List.mem_cons_self _ _)
        rw [h.1, hslash] at this
        exact absurd this (by decide)
    | cons x a =>
      simp only [List.cons_append, List.cons.injEq] at h
      obtain ⟨ha1, hb1⟩ := ih a (fun c hc => hver c (List.mem_cons_of_mem _ hc))
        (fun c hc => ha c (List.mem_cons_of_mem _ hc)) h.2
      exact ⟨by rw [h.1, ha1], hb1⟩

theorem missesVersion_sound (tpl path : String) (c : Char) (rest : List Char)
    (h : missesVersion tpl = true) (hpath : path.data = '/' :: 'v' :: c :: rest)
    (hc : VarPattern.version.accepts c = true) : matchTemplate tpl path = false := by
  cases hm : matchTemplate tpl path with
  | false => rfl
  | true =>
    exfalso
    rw [matchTemplate_iff] at hm
    obtain ⟨_, segs, hs, hmatch⟩ := hm
    unfold missesVersion at h
    cases ht : tpl.data with
    | nil =>
      rw [ht] at hs
      have hsegs : segs = [] := by
        have : parseTemplate [] = some [] := rfl
        rw [this] at hs
        exact (Option.some.inj hs).symm
      subst hsegs
      rw [matchSegs_nil, hpath] at hmatch
      exact absurd hmatch (by simp)
    | cons a t =>
      rw [ht] at h hs
      simp only [hs] at h
      match segs, h with
      | .lit (c0 :: c1 :: c2 :: l) :: more, h =>
        rw [matchSegs_lit, hpath] at hmatch
        obtain ⟨u, hu, _⟩ := hmatch
        simp only [List.cons_append, List.cons.injEq] at hu
        obtain ⟨h0, h1, h2, _⟩ := hu
        subst h0 h1 h2
        simp [hc] at h

/-! ## Lemmas: matching routes share their function -/

theorem implemented_entries_iff :
    ∀ e ∈ entriesOf routeTable,
      e.2.2 ≠ Handler.notImplementedHandler ↔ e ∈ implementedEntries := by
  decide

theorem matchTemplate_literal (P path : String)
    (hparse : parseTemplate P.data = some [Segment.lit P.data])
    (h : matchTemplate P path = true) : path = P := by
  rw [matchTemplate_iff] at h
  obtain ⟨_, segs, hs, hm⟩ := h
  rw [hparse] at hs
  simp only [Option.some.injEq] at hs
  subst hs
  rw [matchSegs_lit] at hm
  obtain ⟨t, ht, hm⟩ := hm
  rw [matchSegs_nil] at hm
  subst hm
  apply String.ext
  simpa using ht

theorem literal_target_ping :
    ∀ r ∈ createRouter.routes, r.matches "GET" "/_ping" = true → r.localFct = .ping := by
  decide

theorem literal_target_ps :
    ∀ r ∈ createRouter.routes, r.matches "GET" "/containers/ps" = true →
      r.localFct = .getContainersJSON := by
  decide

theorem literal_target_json :
    ∀ r ∈ createRouter.routes, r.matches "GET" "/containers/json" = true →
      r.localFct = .getContainersJSON := by
  decide

theorem versioned_target_ping :
    ∀ e ∈ entriesOf routeTable, versionedOk "/_ping" .ping e = true := by
  decide

theorem versioned_target_ps :
    ∀ e ∈ entriesOf routeTable, versionedOk "/containers/ps" .getContainersJSON e = true := by
  decide

theorem versioned_target_json :
    ∀ e ∈ entriesOf routeTable, versionedOk "/containers/json" .getContainersJSON e = true := by
  decide

theorem Route.matches_iff (rt : Route) (method path : String) :
    rt.matches method path = true ↔ rt.method = method ∧ matchTemplate rt.template path = true := by
  simp [Route.matches]

theorem versioned_target_sound (P : String) (P0 : List Char) (h : Handler)
    (hP : P.data = '/' :: P0)
    (hall : ∀ e ∈ entriesOf routeTable, versionedOk P h e = true)
    (path : String) (ver : List Char) (hne : ver ≠ [])
    (hacc : ∀ c ∈ ver, VarPattern.version.accepts c = true)
    (hpath : path.data = '/' :: 'v' :: (ver ++ P.data)) :
    ∀ r ∈ createRouter.routes, r.matches "GET" path = true → r.localFct = h := by
  intro r hr hm
  rw [createRouter, mem_routes_iff] at hr
  obtain ⟨e, he, hre⟩ := hr
  have hok := hall e he
  simp only [versionedOk, Bool.and_eq_true] at hok
  obtain ⟨⟨hmiss, hslash⟩, hfun⟩ := hok
  rw [Route.matches_iff] at hm
  rcases hre with rfl | rfl
  · obtain ⟨hmeth, hmatch⟩ := hm
    simp only at hmeth hmatch
    rw [matchTemplate_versioned_iff] at hmatch
    obtain ⟨segs, hs, a, b, hab, _, ha, hmb⟩ := hmatch
    rw [hs] at hslash
    simp only at hslash
    rw [hpath, hP] at hab
    simp only [List.cons.injEq, true_and] at hab
    obtain ⟨rfl, rfl⟩ := version_split ver a b P0 hacc ha hab
      (slashHeaded_matchSegs segs b hslash hmb)
    have hacc2 : templateAccepts e.2.1 P.data = true := by
      simp only [templateAccepts, hs, hP]
      exact hmb
    simpa [hmeth, hacc2] using hfun
  · obtain ⟨_, hmatch⟩ := hm
    simp only at hmatch
    cases ver with
    | nil => exact absurd rfl hne
    | cons c cs =>
      have := missesVersion_sound e.2.1 path c (cs ++ P.data) hmiss
        (by simpa using hpath) (hacc c (List.mem_cons_self _ _))
      rw [this] at hmatch
      exact absurd hmatch (by decide)

theorem versioned_literal_path (P path : String)
    (hparse : parseTemplate P.data = some [Segment.lit P.data])
    (h : matchTemplate (versionSegment ++ P) path = true) :
    ∃ ver, ver ≠ [] ∧ (∀ c ∈ ver, VarPattern.version.accepts c = true) ∧
      path.data = '/' :: 'v' :: (ver ++ P.data) := by
  rw [matchTemplate_versioned_iff] at h
  obtain ⟨segs, hs, ver, b, hpath, hne, hacc, hm⟩ := h
  rw [hparse] at hs
  simp only [Option.some.injEq] at hs
  subst hs
  rw [matchSegs_lit] at hm
  obtain ⟨t, rfl, hm⟩ := hm
  rw [matchSegs_nil] at hm
  subst hm
  exact ⟨ver, hne, hacc, by simpa using hpath⟩

/-- A route bound to an implemented function shares it with every route that
matches the same request. -/
theorem implemented_route_exclusive (method path : String) (r1 r2 : Route)
    (h1 : r1 ∈ createRouter.routes) (h2 : r2 ∈ createRouter.routes)
    (himpl : r1.localFct ≠ .notImplementedHandler)
    (hm1 : r1.matches method path = true) (hm2 : r2.matches method path = true) :
    r2.localFct = r1.localFct := by
  rw [createRouter, mem_routes_iff] at h1
  obtain ⟨e, he, hre⟩ := h1
  have hf : e.2.2 ≠ Handler.notImplementedHandler := by
    rcases hre with rfl | rfl <;> exact himpl
  have hmem := (implemented_entries_iff e he).mp hf
  rw [Route.matches_iff] at hm1
  simp only [implementedEntries, List.mem_cons, List.mem_singleton, List.not_mem_nil,
    or_false] at hmem
  rcases hmem with rfl | rfl | rfl <;> rcases hre with rfl | rfl <;>
    obtain ⟨hmeth, hmatch⟩ := hm1 <;> simp only at hmeth hmatch <;> subst hmeth
  · obtain ⟨ver, hne, hacc, hpath⟩ := versioned_literal_path _ path (by decide) hmatch
    exact versioned_target_sound "/_ping" _ .ping rfl versioned_target_ping path ver hne hacc
      hpath r2 h2 hm2
  · have := matchTemplate_literal _ path (by decide) hmatch
    subst this
    exact literal_target_ping r2 h2 hm2
  · obtain ⟨ver, hne, hacc, hpath⟩ := versioned_literal_path _ path (by decide) hmatch
    exact versioned_target_sound "/containers/ps" _ .getContainersJSON rfl versioned_target_ps
      path ver hne hacc hpath r2 h2 hm2
  · have := matchTemplate_literal _ path (by decide) hmatch
    subst this
    exact literal_target_ps r2 h2 hm2
  · obtain ⟨ver, hne, hacc, hpath⟩ := versioned_literal_path _ path (by decide) hmatch
    exact versioned_target_sound "/containers/json" _ .getContainersJSON rfl
      versioned_target_json path ver hne hacc hpath r2 h2 hm2
  · have := matchTemplate_literal _ path (by decide) hmatch
    subst this
    exact literal_target_json r2 h2 hm2

/-- Any two routes of the router that match the same request are bound to the
same function. -/
theorem routes_agree (method path : String) (r1 r2 : Route)
    (h1 : r1 ∈ createRouter.routes) (h2 : r2 ∈ createRouter.routes)
    (hm1 : r1.matches method path = true) (hm2 : r2.matches method path = true) :
    r1.localFct = r2.localFct := by
  by_cases himpl1 : r1.localFct = .notImplementedHandler
  · by_cases himpl2 : r2.localFct = .notImplementedHandler
    · rw [himpl1, himpl2]
    · exact implemented_route_exclusive method path r2 r1 h2 h1 himpl2 hm2 hm1
  · exact (implemented_route_exclusive method path r1 r2 h1 h2 himpl1 hm1 hm2).symm

/-! ## Lemmas: canonical paths -/

theorem splitSlash_ne_nil (s : List Char) : splitSlash s ≠ [] := by
  cases s with
  | nil => simp [splitSlash]
  | cons c cs =>
    unfold splitSlash
    split
    · simp
    · split <;> simp

theorem splitSlash_cons_of_ne (c : Char) (cs : List Char) (hc : c ≠ '/') :
    ∃ seg rest, splitSlash cs = seg :: rest ∧ splitSlash (c :: cs) = (c :: seg) :: rest := by
  cases h : splitSlash cs with
  | nil => exact absurd h (splitSlash_ne_nil cs)
  | cons seg rest =>
    refine ⟨seg, rest, rfl, ?_⟩
    rw [splitSlash, if_neg hc, h]

theorem splitSlash_append_slash (x rest : List Char) (hx : '/' ∉ x) :
    splitSlash (x ++ '/' :: rest) = x :: splitSlash rest := by
  induction x with
  | nil => simp [splitSlash]
  | cons c x ih =>
    have hc : c ≠ '/' := fun h => hx (h ▸ List.mem_cons_self _ _)
    obtain ⟨seg, more, h1, h2⟩ := splitSlash_cons_of_ne c (x ++ '/' :: rest) hc
    rw [List.cons_append, h2]
    rw [ih (fun h => hx (List.mem_cons_of_mem _ h))] at h1
    simp only [List.cons.injEq] at h1
    rw [← h1.1, ← h1.2]

theorem splitSlash_snoc_slash (s : List Char) : splitSlash (s ++ ['/']) = splitSlash s ++ [[]] := by
  induction s with
  | nil => simp [splitSlash]
  | cons c s ih =>
    by_cases hc : c = '/'
    · subst hc
      simp [splitSlash, ih]
    · obtain ⟨seg, more, h1, h2⟩ := splitSlash_cons_of_ne c s hc
      obtain ⟨seg1, more1, h3, h4⟩ := splitSlash_cons_of_ne c (s ++ ['/']) hc
      rw [List.cons_append, h4, h2]
      rw [ih, h1] at h3
      simp only [List.cons_append, List.cons.injEq] at h3
      rw [← h3.1, ← h3.2]
      rfl

theorem length_joinSegs (segs : List (List Char)) : (joinSegs segs).length = segWeight segs := by
  induction segs with
  | nil => rfl
  | cons s segs ih =>
    simp only [joinSegs, List.flatMap_cons, List.length_append, List.length_cons, segWeight,
      List.map_cons, List.sum_cons] at *
    omega

theorem segWeight_splitSlash (s : List Char) : segWeight (splitSlash s) = s.length + 1 := by
  induction s with
  | nil => rfl
  | cons c s ih =>
    by_cases hc : c = '/'
    · subst hc
      simp only [splitSlash, if_true, segWeight, List.map_cons, List.sum_cons, List.length_nil,
        List.length_cons] at *
      omega
    · obtain ⟨seg, more, h1, h2⟩ := splitSlash_cons_of_ne c s hc
      rw [h2]
      rw [h1] at ih
      simp only [segWeight, List.map_cons, List.sum_cons, List.length_cons] at *
      omega

theorem segWeight_tail_le (st : List (List Char)) : segWeight st.tail ≤ segWeight st := by
  cases st with
  | nil => simp
  | cons a st => simp [segWeight]

theorem cleanStep_plain (st : List (List Char)) (s : List Char) (h : plainSeg s) :
    cleanStep st s = s :: st := by
  obtain ⟨h1, h2, h3⟩ := h
  simp [cleanStep, h1, h2, h3]

theorem foldl_cleanStep_plain (segs st : List (List Char)) (h : ∀ s ∈ segs, plainSeg s) :
    segs.foldl cleanStep st = segs.reverse ++ st := by
  induction segs generalizing st with
  | nil => rfl
  | cons s segs ih =>
    rw [List.foldl_cons, cleanStep_plain st s (h s (List.mem_cons_self _ _)),
      ih _ (fun t ht => h t (List.mem_cons_of_mem _ ht))]
    simp

theorem segWeight_foldl (segs st : List (List Char)) :
    segWeight (segs.foldl cleanStep st) ≤ segWeight st + segWeight segs ∧
      (segWeight (segs.foldl cleanStep st) = segWeight st + segWeight segs →
        ∀ s ∈ segs, plainSeg s) := by
  induction segs generalizing st with
  | nil => simp [segWeight]
  | cons s segs ih =>
    rw [List.foldl_cons]
    have hs : segWeight (s :: segs) = s.length + 1 + segWeight segs := by
      simp [segWeight]
    by_cases hp : plainSeg s
    · rw [cleanStep_plain st s hp]
      obtain ⟨h1, h2⟩ := ih (s :: st)
      have hst : segWeight (s :: st) = s.length + 1 + segWeight st := by simp [segWeight]
      refine ⟨by omega, ?_⟩
      intro heq t ht
      rcases List.mem_cons.mp ht with rfl | ht
      · exact hp
      · exact h2 (by omega) t ht
    · have hle : segWeight (cleanStep st s) ≤ segWeight st := by
        unfold cleanStep
        split
        · exact Nat.le_refl _
        · split
          · exact segWeight_tail_le st
          · rename_i h1 h2
            exact absurd ⟨fun h => h1 (Or.inl h), fun h => h1 (Or.inr h), h2⟩ hp
      obtain ⟨h1, _⟩ := ih (cleanStep st s)
      refine ⟨by omega, ?_⟩
      intro heq
      omega


theorem segWeight_reverse (segs : List (List Char)) : segWeight segs.reverse = segWeight segs := by
  simp [segWeight, List.sum_reverse]

theorem joinSegs_cons (s : List Char) (segs : List (List Char)) :
    joinSegs (s :: segs) = '/' :: s ++ joinSegs segs := by
  simp [joinSegs]

theorem pathCleanRooted_snoc_slash (s : List Char) :
    pathCleanRooted (s ++ ['/']) = pathCleanRooted s := by
  unfold pathCleanRooted
  rw [splitSlash_snoc_slash, List.foldl_append]
  simp [cleanStep]

/-- A rooted path that `path.Clean` leaves unchanged consists of plain
elements only. -/
theorem plain_of_pathCleanRooted (L : List Char) (hne : L ≠ [])
    (h : pathCleanRooted L = '/' :: L) :
    (∀ s ∈ splitSlash L, plainSeg s) ∧ joinSegs (splitSlash L) = '/' :: L := by
  unfold pathCleanRooted at h
  have hplain : ∀ s ∈ splitSlash L, plainSeg s := by
    cases hst : ((splitSlash L).foldl cleanStep []).reverse with
    | nil =>
      rw [hst] at h
      simp only [List.cons.injEq, true_and] at h
      exact absurd h.symm hne
    | cons seg segs =>
      rw [hst] at h
      simp only at h
      have hlen := congrArg List.length h
      rw [length_joinSegs, ← hst, segWeight_reverse] at hlen
      have hw := segWeight_splitSlash L
      apply (segWeight_foldl (splitSlash L) []).2
      simp only [List.length_cons] at hlen
      simp only [segWeight, List.map_nil, List.sum_nil, Nat.zero_add] at *
      omega
  refine ⟨hplain, ?_⟩
  rw [foldl_cleanStep_plain _ _ hplain] at h
  simp only [List.append_nil, List.reverse_reverse] at h
  cases hsp : splitSlash L with
  | nil => exact absurd hsp (splitSlash_ne_nil L)
  | cons seg segs =>
    rw [hsp] at h
    exact h

theorem pathCleanRooted_under (x L : List Char) (hx : '/' ∉ x) (hp : plainSeg x)
    (hne : L ≠ []) (h : pathCleanRooted L = '/' :: L) :
    pathCleanRooted (x ++ '/' :: L) = '/' :: (x ++ '/' :: L) := by
  obtain ⟨hplain, hjoin⟩ := plain_of_pathCleanRooted L hne h
  unfold pathCleanRooted
  rw [splitSlash_append_slash x L hx]
  have hall : ∀ s ∈ x :: splitSlash L, plainSeg s := by
    intro s hs
    rcases List.mem_cons.mp hs with rfl | hs
    · exact hp
    · exact hplain s hs
  rw [foldl_cleanStep_plain _ _ hall]
  simp only [List.append_nil, List.reverse_reverse]
  rw [joinSegs_cons, hjoin]
  simp

theorem pathCleanRooted_head (rest : List Char) : ∃ t, pathCleanRooted rest = '/' :: t := by
  unfold pathCleanRooted
  split
  · exact ⟨[], rfl⟩
  · rename_i seg segs _
    exact ⟨seg ++ joinSegs segs, by rw [joinSegs_cons]; rfl⟩

theorem cleanPath_rooted (rest : List Char) :
    cleanPath ⟨'/' :: rest⟩ =
      if ('/' :: rest).getLast? = some '/' ∧ pathCleanRooted rest ≠ ['/'] then
        ⟨pathCleanRooted rest ++ ['/']⟩
      else ⟨pathCleanRooted rest⟩ := by
  simp [cleanPath]

/-- A path the router's `cleanPath` leaves unchanged starts with a slash. -/
theorem cleanPath_fixed_head (p : String) (h : cleanPath p = p) : ∃ rest, p.data = '/' :: rest := by
  cases hp : p.data with
  | nil =>
    have h1 := congrArg String.data h
    rw [hp] at h1
    simp [cleanPath, hp] at h1
  | cons c cs =>
    have h1 := congrArg String.data h
    unfold cleanPath at h1
    rw [hp] at h1
    simp only at h1
    obtain ⟨t, ht⟩ := pathCleanRooted_head (if c = '/' then cs else c :: cs)
    rw [ht] at h1
    split at h1
    · simp only [List.cons_append, List.cons.injEq] at h1
      exact ⟨cs, by rw [← h1.1]⟩
    · simp only [List.cons.injEq] at h1
      exact ⟨cs, by rw [← h1.1]⟩

theorem getLast_snoc (l : List Char) (b : Char) : (l ++ [b]).getLast? = some b := by
  simp

theorem getLast_cons_snoc (a : Char) (l : List Char) (b : Char) :
    (a :: (l ++ [b])).getLast? = some b := by
  rw [← List.cons_append, getLast_snoc]

theorem getLast_mid (a : Char) (x L : List Char) (b : Char) :
    (a :: (x ++ '/' :: (L ++ [b]))).getLast? = some b := by
  have : a :: (x ++ '/' :: (L ++ [b])) = (a :: (x ++ '/' :: L)) ++ [b] := by simp
  rw [this, getLast_snoc]

/-- A canonical path stays canonical behind one more plain element. -/
theorem cleanPath_under (x rest : List Char) (hx : '/' ∉ x) (hp : plainSeg x)
    (h : cleanPath ⟨'/' :: rest⟩ = ⟨'/' :: rest⟩) :
    cleanPath ⟨'/' :: (x ++ '/' :: rest)⟩ = ⟨'/' :: (x ++ '/' :: rest)⟩ := by
  have hxne : x ≠ [] := hp.1
  rw [cleanPath_rooted] at h ⊢
  rcases List.eq_nil_or_concat rest with rfl | ⟨L, b, rfl⟩
  · have hnp : pathCleanRooted (x ++ ['/']) = '/' :: x := by
      rw [pathCleanRooted_snoc_slash]
      unfold pathCleanRooted
      have h1 : splitSlash x = [x] := by
        have := splitSlash_snoc_slash x
        rw [splitSlash_append_slash x [] hx] at this
        simp only [splitSlash] at this
        exact (List.append_cancel_right this).symm
      rw [h1]
      simp [cleanStep_plain [] x hp, joinSegs]
    rw [hnp]
    have hlast : ('/' :: (x ++ ['/'])).getLast? = some '/' := getLast_cons_snoc _ _ _
    have hne1 : '/' :: x ≠ ['/'] := by simpa using hxne
    rw [if_pos ⟨hlast, hne1⟩]
    simp
  · simp only [List.concat_eq_append] at h ⊢
    by_cases hb : b = '/'
    · subst hb
      have hlast : ('/' :: (L ++ ['/'])).getLast? = some '/' := getLast_cons_snoc _ _ _
      rw [pathCleanRooted_snoc_slash] at h
      by_cases hnp : pathCleanRooted L = ['/']
      · rw [if_neg (fun hh => hh.2 hnp), hnp] at h
        have := congrArg (fun s => s.data.length) h
        simp at this
      · rw [if_pos ⟨hlast, hnp⟩] at h
        have h1 : pathCleanRooted L ++ ['/'] = ('/' :: L) ++ ['/'] := by
          have := congrArg String.data h
          simpa using this
        have h2 : pathCleanRooted L = '/' :: L := List.append_cancel_right h1
        have hLne : L ≠ [] := by
          rintro rfl
          exact hnp h2
        have h3 := pathCleanRooted_under x L hx hp hLne h2
        have h4 : pathCleanRooted (x ++ '/' :: (L ++ ['/'])) = '/' :: (x ++ '/' :: L) := by
          have : x ++ '/' :: (L ++ ['/']) = (x ++ '/' :: L) ++ ['/'] := by simp
          rw [this, pathCleanRooted_snoc_slash, h3]
        have hlast2 : ('/' :: (x ++ '/' :: (L ++ ['/']))).getLast? = some '/' :=
          getLast_mid _ _ _ _
        rw [h4, if_pos ⟨hlast2, by simp⟩]
        simp
    · have hlast : ('/' :: (L ++ [b])).getLast? = some b := getLast_cons_snoc _ _ _
      have hcond : ¬ (('/' :: (L ++ [b])).getLast? = some '/' ∧
          pathCleanRooted (L ++ [b]) ≠ ['/']) := by
        rw [hlast]
        rintro ⟨h1, _⟩
        exact hb (Option.some.inj h1)
      rw [if_neg hcond] at h
      have h2 : pathCleanRooted (L ++ [b]) = '/' :: (L ++ [b]) := by
        have := congrArg String.data h
        simpa using this
      have h3 := pathCleanRooted_under x (L ++ [b]) hx hp (by simp) h2
      have hlast2 : ('/' :: (x ++ '/' :: (L ++ [b]))).getLast? = some b := getLast_mid _ _ _ _
      have hcond2 : ¬ (('/' :: (x ++ '/' :: (L ++ [b]))).getLast? = some '/' ∧
          pathCleanRooted (x ++ '/' :: (L ++ [b])) ≠ ['/']) := by
        rw [hlast2]
        rintro ⟨h1, _⟩
        exact hb (Option.some.inj h1)
      rw [if_neg hcond2, h3]

/-! ## Lemmas: dispatch -/

theorem createRouterFrom_agrees (m : List (String × List (String × Handler)))
    (hperm : (entriesOf m).Perm (entriesOf routeTable)) : (createRouterFrom m).Agrees := by
  intro method path r1 r2 h1 h2 hm1 hm2
  have hmem : ∀ r, r ∈ (createRouterFrom m).routes → r ∈ createRouter.routes := by
    intro r hr
    rw [mem_routes_iff] at hr
    rw [createRouter, mem_routes_iff]
    obtain ⟨e, he, hre⟩ := hr
    exact ⟨e, hperm.subset he, hre⟩
  exact routes_agree method path r1 r2 (hmem r1 h1) (hmem r2 h2) hm1 hm2

theorem Router.Match_of_mem (R : Router) (hag : R.Agrees) (method path : String) (rt : Route)
    (hmem : rt ∈ R.routes) (hm : rt.matches method path = true) :
    ∃ r, R.Match method path = some r ∧ r.localFct = rt.localFct := by
  cases hf : R.Match method path with
  | none =>
    unfold Router.Match at hf
    rw [List.find?_eq_none] at hf
    exact absurd hm (hf rt hmem)
  | some r =>
    unfold Router.Match at hf
    have hmr : r.matches method path = true :=
      @List.find?_some Route (fun r => r.matches method path) r R.routes hf
    exact ⟨r, rfl, hag method path r rt (List.mem_of_find?_eq_some hf) hmem hmr hm⟩

theorem Router.Match_none_iff (R : Router) (method path : String) :
    R.Match method path = none ↔ ∀ rt ∈ R.routes, rt.matches method path = false := by
  unfold Router.Match
  rw [List.find?_eq_none]
  constructor
  · intro h rt hrt
    simpa using h rt hrt
  · intro h rt hrt
    simp [h rt hrt]

/-- Two tables with the same entries select the same function for a request. -/
theorem Match_localFct_perm (m1 m2 : List (String × List (String × Handler)))
    (h1 : (entriesOf m1).Perm (entriesOf routeTable))
    (h2 : (entriesOf m2).Perm (entriesOf routeTable)) (method path : String) :
    ((createRouterFrom m1).Match method path).map (·.localFct) =
      ((createRouterFrom m2).Match method path).map (·.localFct) := by
  have hsub : ∀ (ma mb : List (String × List (String × Handler))),
      (entriesOf ma).Perm (entriesOf mb) →
      ∀ r, r ∈ (createRouterFrom ma).routes → r ∈ (createRouterFrom mb).routes := by
    intro ma mb hp r hr
    rw [mem_routes_iff] at hr ⊢
    obtain ⟨e, he, hre⟩ := hr
    exact ⟨e, hp.subset he, hre⟩
  have h12 : (entriesOf m1).Perm (entriesOf m2) := h1.trans h2.symm
  cases hf1 : (createRouterFrom m1).Match method path with
  | none =>
    have hnone : (createRouterFrom m2).Match method path = none := by
      rw [Router.Match_none_iff] at hf1 ⊢
      intro rt hrt
      exact hf1 rt (hsub m2 m1 h12.symm rt hrt)
    rw [hnone]
  | some r =>
    have hr : r ∈ (createRouterFrom m1).routes := by
      unfold Router.Match at hf1
      exact List.mem_of_find?_eq_some hf1
    have hm : r.matches method path = true := by
      unfold Router.Match at hf1
      exact @List.find?_some Route (fun r => r.matches method path) r _ hf1
    obtain ⟨r2, hr2, hfct⟩ := Router.Match_of_mem (createRouterFrom m2)
      (createRouterFrom_agrees m2 h2) method path r (hsub m1 m2 h12 r hr) hm
    rw [hr2]
    simp [hfct]

theorem mem_routes_perm (ma mb : List (String × List (String × Handler)))
    (hp : (entriesOf ma).Perm (entriesOf mb)) (r : Route) :
    r ∈ (createRouterFrom ma).routes ↔ r ∈ (createRouterFrom mb).routes := by
  rw [mem_routes_iff, mem_routes_iff]
  constructor
  · rintro ⟨e, he, hre⟩
    exact ⟨e, hp.subset he, hre⟩
  · rintro ⟨e, he, hre⟩
    exact ⟨e, hp.symm.subset he, hre⟩

theorem any_routes_perm (ma mb : List (String × List (String × Handler)))
    (hp : (entriesOf ma).Perm (entriesOf mb)) (f : Route → Bool) :
    (createRouterFrom ma).routes.any f = (createRouterFrom mb).routes.any f := by
  rw [Bool.eq_iff_iff, List.any_eq_true, List.any_eq_true]
  constructor
  · rintro ⟨r, hr, hf⟩
    exact ⟨r, (mem_routes_perm ma mb hp r).mp hr, hf⟩
  · rintro ⟨r, hr, hf⟩
    exact ⟨r, (mem_routes_perm ma mb hp r).mpr hr, hf⟩

/-- A request with a canonical path that a route matches is served by the
function of that route. -/
theorem ServeHTTP_of_mem (env : Env) (c : Cluster) (w : ResponseWriter) (r : Request)
    (rt : Route) (hmem : rt ∈ createRouter.routes)
    (hm : rt.matches r.Method r.Path = true) (hclean : cleanPath r.Path = r.Path) :
    createRouter.ServeHTTP env c w r = wrap env c rt.localFct w r := by
  obtain ⟨r0, hr0, hfct⟩ := Router.Match_of_mem createRouter
    (createRouterFrom_agrees routeTable (List.Perm.refl _)) r.Method r.Path rt hmem hm
  simp [Router.ServeHTTP, hr0, hfct, hclean]

/-- A request whose path is not canonical is redirected; no route is tried. -/
theorem ServeHTTP_redirect (R : Router) (env : Env) (c : Cluster) (w : ResponseWriter)
    (r : Request) (hclean : cleanPath r.Path ≠ r.Path) :
    R.ServeHTTP env c w r =
      ⟨(w.SetLocation (r.urlWithPath (cleanPath r.Path))).WriteHeader 301, 0, []⟩ := by
  simp [Router.ServeHTTP, hclean]

/-- The path of a request behind `/v` and a version is canonical when the
path of the request is. -/
theorem cleanPath_versioned (ver q : String)
    (hver : ∀ ch ∈ ver.data, ch.isDigit = true ∨ ch = '.')
    (hq : cleanPath q = q) : cleanPath ("/v" ++ ver ++ q) = "/v" ++ ver ++ q := by
  obtain ⟨rest, hrest⟩ := cleanPath_fixed_head q hq
  have hq1 : q = ⟨'/' :: rest⟩ := String.ext hrest
  have hx : '/' ∉ 'v' :: ver.data := by
    intro hmem
    rcases List.mem_cons.mp hmem with h | h
    · exact absurd h (by decide)
    · rcases hver '/' h with h1 | h1
      · exact absurd h1 (by decide)
      · exact absurd h1 (by decide)
  have hplain : plainSeg ('v' :: ver.data) := by
    refine ⟨by simp, ?_, ?_⟩
    · intro h
      exact absurd (List.cons.inj h).1 (by decide)
    · intro h
      exact absurd (List.cons.inj h).1 (by decide)
  have hgoal : "/v" ++ ver ++ q = ⟨'/' :: ('v' :: ver.data ++ '/' :: rest)⟩ := by
    apply String.ext
    simp [hrest]
  rw [hgoal]
  rw [hq1] at hq
  exact cleanPath_under ('v' :: ver.data) rest hx hplain hq

/-- A handler reads of the request only the outcome of `ParseForm`. -/
theorem Handler.run_congr (env : Env) (c : Cluster) (w : ResponseWriter) (f : Handler)
    (r1 r2 : Request) (h : r2.ParseForm = r1.ParseForm) :
    f.run env c w r2 = f.run env c w r1 := by
  cases f with
  | ping => rfl
  | getContainersJSON =>
    show Api.getContainersJSON env c w r2 = Api.getContainersJSON env c w r1
    unfold Api.getContainersJSON
    rw [h]
  | notImplementedHandler => rfl

theorem notImplemented_response (c : Cluster) (r : Request) :
    (notImplementedHandler c .fresh r).w =
      ⟨some 501, "Not supported in clustering mode.\n", none⟩ := by
  show httpError ResponseWriter.fresh "Not supported in clustering mode." 501 = _
  decide

theorem nameVar_routes_notImplemented :
    ∀ r ∈ createRouter.routes, hasNameVar r.template = true →
      r.localFct = .notImplementedHandler := by
  decide

theorem routes_eq_flatMap :
    createRouter.routes =
      (entriesOf routeTable).flatMap fun e => register e.1 e.2.1 e.2.2 := by
  decide

theorem routes_of_entry :
    ∀ e ∈ entriesOf routeTable,
      (createRouter.routes.filter fun r =>
        r.method == e.1 && (r.template == e.2.1 || r.template == versionSegment ++ e.2.1)) =
      [⟨versionSegment ++ e.2.1, e.1, e.2.2⟩, ⟨e.2.1, e.1, e.2.2⟩] := by
  decide

/-! ## The route table -/

/-- C6 fails as stated: the request `GET /containers//json` matches the route
of the entry `GET /containers/{name:.*}/json`, which is bound to
`notImplementedHandler`, yet the answer is not 501: the path is not canonical
and the router redirects (301) to `/containers/json` before any route is
tried. -/
theorem unsupported_noncanonical_counterexample :
    ("GET", "/containers/{name:.*}/json", Handler.notImplementedHandler) ∈
        entriesOf routeTable ∧
      (⟨"/containers/{name:.*}/json", "GET", Handler.notImplementedHandler⟩ : Route).matches
        "GET" "/containers//json" = true ∧
      (createRouter.ServeHTTP exampleEnv exampleCluster ResponseWriter.fresh
        (getRequest "/containers//json" [])).w = ⟨some 301, "", some "/containers/json"⟩ ∧
      (createRouter.ServeHTTP exampleEnv exampleCluster ResponseWriter.fresh
        (getRequest "/containers//json" [])).w.code ≠ 501 := by
  refine ⟨by decide, by decide, by decide, by decide⟩

/-- C6 as amended: the entries of the route table not bound to
`notImplementedHandler` are exactly `GET /_ping` (`ping`) and
`GET /containers/ps`, `GET /containers/json` (`getContainersJSON`), all three
in the table; the other 40 entries are bound to `notImplementedHandler`. A
request that matches a route of one of those, with or without the version
segment, and whose path is canonical is answered with status 501 and the body
`Not supported in clustering mode.` (one line), the same for all those entries,
whatever the request and the cluster; when its path is not canonical it is
answered with the redirect (301) instead. -/
theorem unsupported_entries_answer_501 (env : Env) (c : Cluster) (r : Request) :
    (∀ e : String × String × Handler,
      (e ∈ entriesOf routeTable ∧ e.2.2 ≠ Handler.notImplementedHandler) ↔
        (e = ("GET", "/_ping", Handler.ping) ∨
          e = ("GET", "/containers/ps", Handler.getContainersJSON) ∨
          e = ("GET", "/containers/json", Handler.getContainersJSON))) ∧
      ((entriesOf routeTable).filter fun e =>
        e.2.2 == Handler.notImplementedHandler).length = 40 ∧
      (∀ e ∈ entriesOf routeTable, e.2.2 = Handler.notImplementedHandler →
        ∀ rt : Route, (rt = ⟨versionSegment ++ e.2.1, e.1, e.2.2⟩ ∨ rt = ⟨e.2.1, e.1, e.2.2⟩) →
          rt.matches r.Method r.Path = true →
          (cleanPath r.Path = r.Path →
            (createRouter.ServeHTTP env c .fresh r).w =
              ⟨some 501, "Not supported in clustering mode.\n", none⟩ ∧
            (createRouter.ServeHTTP env c .fresh r).w.code = 501 ∧
            (createRouter.ServeHTTP env c .fresh r).containersCalls = 0) ∧
          (cleanPath r.Path ≠ r.Path →
            (createRouter.ServeHTTP env c .fresh r).w =
              ⟨some 301, "", some (r.urlWithPath (cleanPath r.Path))⟩ ∧
            (createRouter.ServeHTTP env c .fresh r).containersCalls = 0)) ∧
      (∀ (c1 : Cluster) (r1 : Request),
        (notImplementedHandler c1 .fresh r1).w =
          ⟨some 501, "Not supported in clustering mode.\n", none⟩) := by
  refine ⟨?_, by decide, ?_, notImplemented_response⟩
  · intro e
    constructor
    · rintro ⟨he, hf⟩
      have := (implemented_entries_iff e he).mp hf
      simpa [implementedEntries] using this
    · rintro (rfl | rfl | rfl)
      · exact ⟨by decide, by decide⟩
      · exact ⟨by decide, by decide⟩
      · exact ⟨by decide, by decide⟩
  · intro e he hf rt hrt hm
    have hmem : rt ∈ createRouter.routes := by
      rw [createRouter, mem_routes_iff]
      exact ⟨e, he, hrt⟩
    have hfct : rt.localFct = Handler.notImplementedHandler := by
      rcases hrt with rfl | rfl <;> exact hf
    constructor
    · intro hclean
      rw [ServeHTTP_of_mem env c _ r rt hmem hm hclean, hfct]
      have hw : (wrap env c Handler.notImplementedHandler ResponseWriter.fresh r).w =
          ⟨some 501, "Not supported in clustering mode.\n", none⟩ :=
        notImplemented_response c r
      refine ⟨hw, ?_, rfl⟩
      rw [hw]
      rfl
    · intro hclean
      rw [ServeHTTP_redirect createRouter env c _ r hclean]
      exact ⟨rfl, rfl⟩

/-- C7 fails as stated: at the entry `OPTIONS ""` the request to the versioned
alias `/v1.12` is answered 501 by the handler, while the request to the
unversioned path, the empty path, is redirected (301) and reaches no handler;
and the non-canonical path `/containers//json` and its versioned alias are
redirected to different places. -/
theorem versioned_alias_counterexample :
    ("OPTIONS", "", Handler.notImplementedHandler) ∈ entriesOf routeTable ∧
      matchTemplate "" "" = true ∧
      matchTemplate (versionSegment ++ "") "/v1.12" = true ∧
      (createRouter.ServeHTTP exampleEnv exampleCluster ResponseWriter.fresh
        (optionsRequest "")).w = ⟨some 301, "", some "/"⟩ ∧
      (createRouter.ServeHTTP exampleEnv exampleCluster ResponseWriter.fresh
        (optionsRequest "/v1.12")).w =
          ⟨some 501, "Not supported in clustering mode.\n", none⟩ ∧
      (createRouter.ServeHTTP exampleEnv exampleCluster ResponseWriter.fresh
        (getRequest "/containers//json" [])).w ≠
        (createRouter.ServeHTTP exampleEnv exampleCluster ResponseWriter.fresh
          (getRequest "/v1.12/containers//json" [])).w := by
  refine ⟨by decide, by decide, by decide, by decide, by decide, by decide⟩

/-- C7 as amended: for every entry (method, path, function) of the route table
the router holds exactly two routes for that method, one for the path and one
for the path behind the version segment, both calling the entry's own
function with the cluster, writer and request handed over unchanged; a
request whose path the entry's template matches and is canonical, and the
same request behind `/v` and a non-empty run of digits and periods (whose
path is then canonical too), get the same response, that of the entry's
function. -/
theorem versioned_alias_same_response (env : Env) (c : Cluster) (w : ResponseWriter)
    (e : String × String × Handler) (he : e ∈ entriesOf routeTable) :
    (createRouter.routes.filter fun r =>
        r.method == e.1 && (r.template == e.2.1 || r.template == versionSegment ++ e.2.1)) =
      [⟨versionSegment ++ e.2.1, e.1, e.2.2⟩, ⟨e.2.1, e.1, e.2.2⟩] ∧
      (entriesOf routeTable).length = 43 ∧
      createRouter.routes.length = 2 * (entriesOf routeTable).length ∧
      (∀ r : Request,
        (wrap env c e.2.2 w r).w = (e.2.2.run env c w r).w ∧
        (wrap env c e.2.2 w r).containersCalls = (e.2.2.run env c w r).containersCalls) ∧
      (∀ (ver : String) (r1 r2 : Request),
        ver.data ≠ [] → (∀ ch ∈ ver.data, ch.isDigit = true ∨ ch = '.') →
        r1.Method = e.1 → r2.Method = e.1 →
        matchTemplate e.2.1 r1.Path = true → cleanPath r1.Path = r1.Path →
        r2.Path = "/v" ++ ver ++ r1.Path → r2.ParseForm = r1.ParseForm →
          matchTemplate (versionSegment ++ e.2.1) r2.Path = true ∧
          cleanPath r2.Path = r2.Path ∧
          (createRouter.ServeHTTP env c w r1).w = (e.2.2.run env c w r1).w ∧
          (createRouter.ServeHTTP env c w r2).w = (createRouter.ServeHTTP env c w r1).w ∧
          (createRouter.ServeHTTP env c w r2).containersCalls =
            (createRouter.ServeHTTP env c w r1).containersCalls) := by
  refine ⟨routes_of_entry e he, by decide, by decide, fun r => ⟨rfl, rfl⟩, ?_⟩
  intro ver r1 r2 hne hver hm1 hm2 hmatch hclean hpath hform
  have hv : matchTemplate (versionSegment ++ e.2.1) r2.Path = true := by
    rw [matchTemplate_versioned_iff]
    rw [matchTemplate_iff] at hmatch
    obtain ⟨_, segs, hs, hmatch⟩ := hmatch
    refine ⟨segs, hs, ver.data, r1.Path.data, by rw [hpath]; simp, hne, ?_, hmatch⟩
    intro ch hch
    rcases hver ch hch with hd | rfl
    · simp [VarPattern.accepts, hd]
    · decide
  have hclean2 : cleanPath r2.Path = r2.Path := by
    rw [hpath]
    exact cleanPath_versioned ver r1.Path hver hclean
  have hmemL : (⟨e.2.1, e.1, e.2.2⟩ : Route) ∈ createRouter.routes := by
    rw [createRouter, mem_routes_iff]
    exact ⟨e, he, Or.inr rfl⟩
  have hmemV : (⟨versionSegment ++ e.2.1, e.1, e.2.2⟩ : Route) ∈ createRouter.routes := by
    rw [createRouter, mem_routes_iff]
    exact ⟨e, he, Or.inl rfl⟩
  have hs1 := ServeHTTP_of_mem env c w r1 _ hmemL
    (by rw [Route.matches_iff]; exact ⟨hm1.symm, hmatch⟩) hclean
  have hs2 := ServeHTTP_of_mem env c w r2 _ hmemV
    (by rw [Route.matches_iff]; exact ⟨hm2.symm, hv⟩) hclean2
  have hrun := Handler.run_congr env c w e.2.2 r1 r2 hform
  refine ⟨hv, hclean2, ?_, ?_, ?_⟩
  · rw [hs1]; rfl
  · rw [hs1, hs2]
    show (e.2.2.run env c w r2).w = (e.2.2.run env c w r1).w
    rw [hrun]
  · rw [hs1, hs2]
    show (e.2.2.run env c w r2).containersCalls = (e.2.2.run env c w r1).containersCalls
    rw [hrun]

/-- C10: dispatch does not depend on the order in which the table is
iterated: all routes that match a request's method and path are bound to the
same function, so two routers built from the table's entries in any two
orders select the same function and give the same answer to every request;
in particular no route with a `name` variable matches a request that a route
of `/_ping`, `/containers/ps` or `/containers/json`, versioned or not,
matches. -/
theorem dispatch_order_independent (m1 m2 : List (String × List (String × Handler)))
    (h1 : (entriesOf m1).Perm (entriesOf routeTable))
    (h2 : (entriesOf m2).Perm (entriesOf routeTable)) (method path : String) :
    (∀ r1 ∈ (createRouterFrom m1).routes, ∀ r2 ∈ (createRouterFrom m1).routes,
        r1.matches method path = true → r2.matches method path = true →
        r1.localFct = r2.localFct) ∧
      ((createRouterFrom m1).Match method path).map (·.localFct) =
        ((createRouterFrom m2).Match method path).map (·.localFct) ∧
      (∀ (env : Env) (c : Cluster) (w : ResponseWriter) (r : Request),
        r.Method = method → r.Path = path →
        (createRouterFrom m1).ServeHTTP env c w r = (createRouterFrom m2).ServeHTTP env c w r) ∧
      (∀ r1 ∈ (createRouterFrom m1).routes, r1.localFct ≠ Handler.notImplementedHandler →
        r1.matches method path = true →
        ∀ r2 ∈ (createRouterFrom m1).routes, hasNameVar r2.template = true →
          r2.matches method path = false) := by
  have hsub : ∀ r, r ∈ (createRouterFrom m1).routes → r ∈ createRouter.routes := by
    intro r hr
    rw [mem_routes_iff] at hr
    rw [createRouter, mem_routes_iff]
    obtain ⟨e, he, hre⟩ := hr
    exact ⟨e, h1.subset he, hre⟩
  refine ⟨?_, Match_localFct_perm m1 m2 h1 h2 method path, ?_, ?_⟩
  · intro r1 hr1 r2 hr2 hm1 hm2
    exact createRouterFrom_agrees m1 h1 method path r1 r2 hr1 hr2 hm1 hm2
  · intro env c w r hmeth hp
    have hmap := Match_localFct_perm m1 m2 h1 h2 r.Method r.Path
    have hany := any_routes_perm m1 m2 (h1.trans h2.symm)
      (fun route => matchTemplate route.template r.Path)
    unfold Router.ServeHTTP
    cases hf1 : (createRouterFrom m1).Match r.Method r.Path with
    | none =>
      rw [hf1] at hmap
      cases hf2 : (createRouterFrom m2).Match r.Method r.Path with
      | none => simp only [hany]
      | some b => rw [hf2] at hmap; simp at hmap
    | some a =>
      rw [hf1] at hmap
      cases hf2 : (createRouterFrom m2).Match r.Method r.Path with
      | none => rw [hf2] at hmap; simp at hmap
      | some b =>
        rw [hf2] at hmap
        simp only [Option.map_some', Option.some.injEq] at hmap
        simp only [hmap]
  · intro r1 hr1 himpl hm1 r2 hr2 hname
    cases hm2 : r2.matches method path with
    | false => rfl
    | true =>
      have := routes_agree method path r1 r2 (hsub r1 hr1) (hsub r2 hr2) hm1 hm2
      rw [nameVar_routes_notImplemented r2 (hsub r2 hr2) hname] at this
      exact absurd this himpl

/-! ## The `name` segment -/

theorem splitAtName_append (a b : List Char) (ha : '{' ∉ a) :
    splitAtName (a ++ "{name:.*}".data ++ b) = some (a, b) := by
  induction a with
  | nil =>
    have h : startsWith ('{' :: ("name:.*\x7d".data ++ b)) "{name:.*}".data = true :=
      (startsWith_iff _ _).mpr ⟨b, rfl⟩
    show splitAtName ('{' :: ("name:.*\x7d".data ++ b)) = some ([], b)
    unfold splitAtName
    rw [if_pos h]
    rfl
  | cons c a ih =>
    have hc : c ≠ '{' := fun hc => ha (hc ▸ List.mem_cons_self _ _)
    have ha1 : '{' ∉ a := fun h => ha (List.mem_cons_of_mem _ h)
    have h : startsWith (c :: (a ++ "{name:.*}".data ++ b)) "{name:.*}".data = false := by
      cases hs : startsWith (c :: (a ++ "{name:.*}".data ++ b)) "{name:.*}".data with
      | false => rfl
      | true =>
        rw [startsWith_iff] at hs
        obtain ⟨t, ht⟩ := hs
        have : c = '{' := (List.cons.inj ht).1
        exact absurd this hc
    show splitAtName (c :: (a ++ "{name:.*}".data ++ b)) = some (c :: a, b)
    unfold splitAtName
    rw [h, ih ha1]
    rfl

theorem matchSegs_litSeg (b s : List Char) : matchSegs (litSeg b) s = true ↔ s = b := by
  unfold litSeg
  split
  · rename_i hb
    subst hb
    exact matchSegs_nil s
  · rw [matchSegs_lit]
    constructor
    · rintro ⟨t, rfl, ht⟩
      rw [matchSegs_nil] at ht
      simp [ht]
    · rintro rfl
      exact ⟨[], by simp, (matchSegs_nil _).mpr rfl⟩

theorem matchSegs_name (a b n s : List Char) :
    matchSegs (Segment.lit a :: Segment.var n .dotStar :: litSeg b) s = true ↔
      ∃ name : List Char, (∀ ch ∈ name, ch ≠ '\n') ∧ s = a ++ name ++ b := by
  rw [matchSegs_lit]
  constructor
  · rintro ⟨t, rfl, ht⟩
    rw [matchSegs_var] at ht
    obtain ⟨x, y, rfl, _, hx, hy⟩ := ht
    rw [matchSegs_litSeg] at hy
    subst hy
    refine ⟨x, ?_, by simp⟩
    intro ch hch
    simpa [VarPattern.accepts] using hx ch hch
  · rintro ⟨name, hname, rfl⟩
    refine ⟨name ++ b, by simp, ?_⟩
    rw [matchSegs_var]
    refine ⟨name, b, rfl, Nat.zero_le _, ?_, (matchSegs_litSeg b b).mpr rfl⟩
    intro ch hch
    simpa [VarPattern.accepts] using hname ch hch

theorem nameShape_entries : ∀ e ∈ entriesOf routeTable, nameShapeOk e = true := by
  decide

/-- C9 fails as stated: the pattern of `DELETE /containers/{name:.*}` matches
the path `/containers/`, whose name is empty, and the router selects that
route; likewise `/containers/{name:.*}/json` matches `/containers//json`; so
"matches exactly when the name is some non-empty text" is false. A name with a
line feed, though not empty, is not matched. -/
theorem name_segment_empty_counterexample :
    matchTemplate "/containers/{name:.*}" "/containers/" = true ∧
      (createRouter.Match "DELETE" "/containers/").map (·.template) =
        some "/containers/{name:.*}" ∧
      matchTemplate "/containers/{name:.*}/json" "/containers//json" = true ∧
      matchTemplate "/containers/{name:.*}" "/containers/a\nb" = false ∧
      ¬ (∀ path : String, matchTemplate "/containers/{name:.*}" path = true ↔
          ∃ name : String, name ≠ "" ∧ path = "/containers/" ++ name) := by
  refine ⟨by decide, by decide, by decide, by decide, ?_⟩
  intro h
  obtain ⟨name, hne, hpath⟩ := (h "/containers/").mp (by decide)
  apply hne
  apply String.ext
  have := congrArg String.data hpath
  simp only [String.data_append] at this
  have hlen := congrArg List.length this
  simp only [List.length_append] at hlen
  exact List.eq_nil_of_length_eq_zero (by omega)

/-- C9 as amended: for every entry of the route table whose path has the
segment `{name:.*}`, with literal text `L1` before and `L2` after it, a path
matches the pattern exactly when it is `L1`, some text without a line feed
(the empty text included), and `L2`; it matches the versioned pattern exactly
when it is `/v`, a non-empty run of digits and periods, and such a path. -/
theorem name_segment_accepts_any_line (e : String × String × Handler)
    (he : e ∈ entriesOf routeTable) (L1 L2 : String)
    (hp : e.2.1 = L1 ++ "{name:.*}" ++ L2) (hL1 : '{' ∉ L1.data) (path : String) :
    (matchTemplate e.2.1 path = true ↔
        ∃ name : String, (∀ ch ∈ name.data, ch ≠ '\n') ∧ path = L1 ++ name ++ L2) ∧
      (matchTemplate (versionSegment ++ e.2.1) path = true ↔
        ∃ ver name : String, ver.data ≠ [] ∧
          (∀ ch ∈ ver.data, ch.isDigit = true ∨ ch = '.') ∧
          (∀ ch ∈ name.data, ch ≠ '\n') ∧ path = "/v" ++ ver ++ (L1 ++ name ++ L2)) ∧
      matchTemplate e.2.1 (L1 ++ L2) = true := by
  have hsplit : splitAtName e.2.1.data = some (L1.data, L2.data) := by
    rw [hp]
    simp only [String.data_append]
    exact splitAtName_append L1.data L2.data hL1
  have hok := nameShape_entries e he
  simp only [nameShapeOk, hsplit, Bool.and_eq_true, decide_eq_true_eq, startsWith_iff] at hok
  obtain ⟨hparse, t1, ht1⟩ := hok
  have hslash : ∃ t, e.2.1.data = '/' :: t := by
    rw [hp]
    simp only [String.data_append, ht1]
    exact ⟨_, rfl⟩
  have hlit : ∀ q : String, matchTemplate e.2.1 q = true ↔
      ∃ name : String, (∀ ch ∈ name.data, ch ≠ '\n') ∧ q = L1 ++ name ++ L2 := by
    intro q
    rw [matchTemplate_iff]
    constructor
    · rintro ⟨_, segs, hs, hm⟩
      rw [hparse] at hs
      simp only [Option.some.injEq] at hs
      subst hs
      rw [matchSegs_name] at hm
      obtain ⟨name, hname, hpath⟩ := hm
      refine ⟨⟨name⟩, hname, ?_⟩
      apply String.ext
      simpa using hpath
    · rintro ⟨name, hname, rfl⟩
      obtain ⟨t0, ht0⟩ := hslash
      refine ⟨templateOk_of_slash _ t0 ht0, _, hparse, ?_⟩
      rw [matchSegs_name]
      exact ⟨name.data, hname, by simp⟩
  have hacc : ∀ ch : Char, VarPattern.version.accepts ch = true ↔
      (ch.isDigit = true ∨ ch = '.') := by
    intro ch
    simp [VarPattern.accepts]
  refine ⟨hlit path, ?_, ?_⟩
  · rw [matchTemplate_versioned_iff]
    constructor
    · rintro ⟨segs, hs, ver, b, hpath, hne, hver, hm⟩
      rw [hparse] at hs
      simp only [Option.some.injEq] at hs
      subst hs
      rw [matchSegs_name] at hm
      obtain ⟨name, hname, rfl⟩ := hm
      refine ⟨⟨ver⟩, ⟨name⟩, hne, fun ch hch => (hacc ch).mp (hver ch hch), hname, ?_⟩
      apply String.ext
      simpa using hpath
    · rintro ⟨ver, name, hne, hver, hname, rfl⟩
      refine ⟨_, hparse, ver.data, L1.data ++ name.data ++ L2.data, by simp, hne,
        fun ch hch => (hacc ch).mpr (hver ch hch), ?_⟩
      rw [matchSegs_name]
      exact ⟨name.data, hname, rfl⟩
  · rw [hlit]
    exact ⟨"", by simp, by apply String.ext; simp⟩

/-! ## The theorems at concrete inputs -/

/-- C1 at the specification's example: without `all`, the two `Up` containers
are listed. -/
theorem getContainersJSON_encodes_included_witness :
    ∃ out : List DockerContainer,
      listing exampleEnv (allFlag []) exampleCluster.Containers = Slice.elems out ∧
      out.Perm [(mkContainer "a" 1 "Up 2 hours").Container,
        (mkContainer "c" 3 "Up 10 minutes").Container] := by
  obtain ⟨out, h1, _, h3, _⟩ := getContainersJSON_encodes_included exampleEnv exampleCluster
    ResponseWriter.fresh (getRequest "/containers/json" []) [] rfl
  refine ⟨out, h1, ?_⟩
  have hf : ((exampleCluster.Containers.map (·.Container)).filter fun d =>
      stringsContains d.Status "Up" || allFlag []) =
      [(mkContainer "a" 1 "Up 2 hours").Container,
        (mkContainer "c" 3 "Up 10 minutes").Container] := by
    decide
  rw [← hf]
  exact h3

/-- C2 at the specification's example: with `all=1` the three containers are
listed newest first. -/
theorem getContainersJSON_descending_witness :
    listing exampleEnv (allFlag [("all", ["1"])]) exampleCluster.Containers =
        Slice.elems [(mkContainer "c" 3 "Up 10 minutes").Container,
          (mkContainer "b" 2 "Exited (0) 1 hour ago").Container,
          (mkContainer "a" 1 "Up 2 hours").Container] ∧
      ∃ out : List DockerContainer,
        listing exampleEnv (allFlag [("all", ["1"])]) exampleCluster.Containers =
          Slice.elems out ∧
        out.Pairwise (fun a b => lessByCreated a b = false) := by
  refine ⟨by decide, ?_⟩
  obtain ⟨out, h1, _, _, h4, _⟩ := getContainersJSON_descending exampleEnv exampleCluster
    ResponseWriter.fresh (getRequest "/containers/json" [("all", ["1"])]) [("all", ["1"])] rfl
    lessByCreated_strictWeakOrder
  exact ⟨out, h1, h4⟩

/-- C3 at `all=true`: the response is that of the request without `all`. -/
theorem getContainersJSON_all_only_one_witness :
    getContainersJSON exampleEnv exampleCluster ResponseWriter.fresh
        (getRequest "/containers/json" [("all", ["true"])]) =
      getContainersJSON exampleEnv exampleCluster ResponseWriter.fresh
        (getRequest "/containers/json" []) :=
  (getContainersJSON_all_only_one exampleEnv exampleCluster ResponseWriter.fresh
    (getRequest "/containers/json" [("all", ["true"])]) (getRequest "/containers/json" [])
    [("all", ["true"])] [] "true" [] rfl rfl rfl (by decide) rfl).2.2.2

/-- C8 at a cluster whose only container has exited. -/
theorem getContainersJSON_empty_array_witness :
    (getContainersJSON exampleEnv ⟨[mkContainer "b" 2 "Exited (0) 1 hour ago"]⟩
      ResponseWriter.fresh (getRequest "/containers/json" [])).w.body = "[]\n" :=
  (getContainersJSON_empty_array exampleEnv ⟨[mkContainer "b" 2 "Exited (0) 1 hour ago"]⟩
    (getRequest "/containers/json" []) [] rfl (Or.inr (by decide))).2.2.1

/-- C7 at `GET /containers/json` and the version `1.12`. -/
theorem versioned_alias_same_response_witness :
    (createRouter.ServeHTTP exampleEnv exampleCluster ResponseWriter.fresh
        (getRequest "/v1.12/containers/json" [])).w =
      (createRouter.ServeHTTP exampleEnv exampleCluster ResponseWriter.fresh
        (getRequest "/containers/json" [])).w :=
  ((versioned_alias_same_response exampleEnv exampleCluster ResponseWriter.fresh
    ("GET", "/containers/json", Handler.getContainersJSON) (by decide)).2.2.2.2 "1.12"
    (getRequest "/containers/json" []) (getRequest "/v1.12/containers/json" [])
    (by decide) (by decide) rfl rfl (by decide) (by decide) (by decide) rfl).2.2.2.1

/-- C9 as amended, at `DELETE /containers/{name:.*}`: the path `/containers/`
is matched. -/
theorem name_segment_accepts_any_line_witness :
    matchTemplate "/containers/{name:.*}" ("/containers/" ++ "") = true :=
  (name_segment_accepts_any_line ("DELETE", "/containers/{name:.*}",
    Handler.notImplementedHandler) (by decide) "/containers/" "" (by decide) (by decide)
    "/containers/").2.2

/-- C10 at the table iterated in the opposite order of its methods. -/
theorem dispatch_order_independent_witness :
    ((createRouterFrom routeTable.reverse).Match "GET" "/v1.12/containers/json").map
        (·.localFct) =
      (createRouter.Match "GET" "/v1.12/containers/json").map (·.localFct) :=
  (dispatch_order_independent routeTable.reverse routeTable
    (List.Perm.flatMap_right _ (List.reverse_perm routeTable)) (List.Perm.refl _)
    "GET" "/v1.12/containers/json").2.1

end Api
